import Mathlib

/-!
Shallow embedding of the decision-and-motion core of the qr-box-mover-robot
repository: the pose/grid geometry (navigation/position.py, navigation/map.py),
the A* path planner with path smoothing and greedy multi-drop routing
(navigation/path_planner.py), the bounded box inventory
(components/box_manager.py), and the pickup step of the mission controller
(robot.py).

Modelling conventions:
* Python floats are modelled as exact rationals; square roots and atan2
  results, which Python only ever compares, are modelled exactly (pairs
  standing for `a + sqrt b`, real-valued angles).
* Python dicts are modelled as insertion-ordered association lists, Python
  sets as insertion-ordered duplicate-free lists.
* The unbounded `while` loops of the A* search are modelled with a fuel
  parameter; exhausted fuel yields `none`, as does an exhausted frontier.
-/

/-- Cells of the occupancy grid: integer (x, y) pairs, as produced by
truncating pose coordinates in the source. -/
abbrev Cell : Type := Int × Int

/-- Pose value from navigation/position.py: immutable x, y and heading theta.
Coordinates are exact rationals standing for Python floats. -/
structure Position where
  x : ℚ
  y : ℚ
  theta : ℚ
  deriving DecidableEq, Repr

/-- Squared Euclidean distance between two poses. Position.distance_to in the
source returns the (floating point) square root of this quantity; the code
only ever compares or adds such values, which we model exactly. -/
def distsq (a b : Position) : ℚ :=
  (a.x - b.x) ^ 2 + (a.y - b.y) ^ 2

/-- Real value computed by Position.distance_to. -/
noncomputable def distR (a b : Position) : ℝ :=
  Real.sqrt ((distsq a b : ℚ) : ℝ)

/-- Truncation toward zero: the behaviour of Python int() on a numeric value. -/
def pytrunc (q : ℚ) : Int :=
  if q < 0 then Int.ceil q else Int.floor q

/-- Cell index of a pose, as computed by int(position.x), int(position.y). -/
def cellOf (p : Position) : Cell :=
  (pytrunc p.x, pytrunc p.y)

/-- Pose placed at a cell with heading 0, as built throughout the planner via
Position(x=cell[0], y=cell[1], theta=0.0). -/
def cellPos (c : Cell) : Position :=
  { x := (c.1 : ℚ), y := (c.2 : ℚ), theta := 0 }

/-- First-match lookup in an association list (Python dict access). -/
def alookup {α β : Type} [DecidableEq α] : List (α × β) → α → Option β
  | [], _ => none
  | (k, v) :: rest, a => if a = k then some v else alookup rest a

/-- Insert-or-replace update of an association list (Python dict assignment). -/
def aupdate {α β : Type} [DecidableEq α] : List (α × β) → α → β → List (α × β)
  | [], k, v => [(k, v)]
  | (k0, v0) :: rest, k, v =>
    if k = k0 then (k0, v) :: rest else (k0, v0) :: aupdate rest k v

/-- Deletion of a key from an association list (Python del d[k]). -/
def eraseKey {α β : Type} [DecidableEq α] : List (α × β) → α → List (α × β)
  | [], _ => []
  | (k0, v0) :: rest, k => if k = k0 then rest else (k0, v0) :: eraseKey rest k

/-- Error kinds raised by the navigation layer (utils/exceptions.py
NavigationError, distinguished by raise site). -/
inductive NavigationError where
  | noPath
  | notFound
  deriving DecidableEq, Repr

/-- Model of navigation/map.py class Map: grid dimensions, the obstacle cells
stored in the grid, and the named-location table in insertion order. -/
structure Map where
  width : Int
  height : Int
  obstacles : List Cell
  locations : List (String × Position)
  deriving DecidableEq, Repr

/-- Map.is_valid_position: truncate the pose coordinates to integer cell
indices; return false if the index is out of bounds, otherwise return true iff
the grid cell is not an obstacle. -/
def Map.is_valid_position (m : Map) (p : Position) : Bool :=
  let x := pytrunc p.x
  let y := pytrunc p.y
  if 0 ≤ x ∧ x < m.width ∧ 0 ≤ y ∧ y < m.height then
    decide ((x, y) ∉ m.obstacles)
  else
    false

/-- Map.get_position: look up a named location, raising NavigationError when
the name is unknown. -/
def Map.get_position (m : Map) (location_name : String) : Except NavigationError Position :=
  match alookup m.locations location_name with
  | some pos => .ok pos
  | none => .error .notFound

/-- Model of the Python values that can appear in a decoded QR dictionary. -/
inductive PyVal where
  | str (s : String)
  | int (n : Int)
  deriving DecidableEq, Repr

/-- Python str() applied to a QR dictionary value. -/
def pyStr : PyVal → String
  | .str s => s
  | .int n => toString n

/-- Decimal digit test used by the model of Python int() on strings. -/
def isDigitChar (c : Char) : Bool :=
  '0' ≤ c ∧ c ≤ '9'

/-- Digit run to integer value. -/
def digitsVal (ds : List Char) : Int :=
  ds.foldl (fun acc c => acc * 10 + ((c.toNat : Int) - ('0'.toNat : Int))) 0

/-- Whitespace test for the surrounding-whitespace stripping of Python int(). -/
def isSpaceChar (c : Char) : Bool :=
  c = ' ' ∨ c = '\t' ∨ c = '\n' ∨ c = '\r'

/-- Strip whitespace from both ends of a character list. -/
def stripChars (l : List Char) : List Char :=
  ((l.dropWhile isSpaceChar).reverse.dropWhile isSpaceChar).reverse

/-- Integer parse modelling Python int() applied to a string: surrounding
whitespace stripped, an optional sign, then one or more decimal digits
(underscore digit grouping is not modelled). -/
def parseIntString (s : String) : Option Int :=
  let core : List Char → Option Int := fun ds =>
    if ds ≠ [] ∧ ds.all isDigitChar then some (digitsVal ds) else none
  match stripChars s.toList with
  | '-' :: rest => (core rest).map (fun n => -n)
  | '+' :: rest => core rest
  | t => core t

/-- Python int() applied to a QR dictionary value; none models the
ValueError / TypeError cases caught in create_box_info. -/
def pyToInt : PyVal → Option Int
  | .int n => some n
  | .str s => parseIntString s

/-- Parcel record from components/box_manager.py (dataclass BoxInfo). -/
structure BoxInfo where
  id : String
  contents : String
  quantity : Int
  destination : String
  deriving DecidableEq, Repr

/-- Mutable state of components/box_manager.py class BoxManager: the primary
collection and the destination index. -/
structure BoxManager where
  boxes : List BoxInfo
  destinations_map : List (String × List BoxInfo)
  deriving DecidableEq, Repr

/-- Capacity constant BoxManager.MAX_BOXES. -/
def MAX_BOXES : ℕ := 4

/-- Fresh BoxManager state (BoxManager.__init__). -/
def BoxManager.init : BoxManager :=
  { boxes := [], destinations_map := [] }

/-- BoxManager.can_accept_more_boxes. -/
def can_accept_more_boxes (s : BoxManager) : Bool :=
  decide (s.boxes.length < MAX_BOXES)

/-- BoxManager.has_boxes. -/
def has_boxes (s : BoxManager) : Bool :=
  decide (0 < s.boxes.length)

/-- Append a value to the list stored under a key, creating the key at the end
of the dictionary when absent; models the two-step
`if dest not in map: map[dest] = []` / `map[dest].append(box)` idiom. -/
def dictAppend {α β : Type} [DecidableEq α] : List (α × List β) → α → β → List (α × List β)
  | [], k, v => [(k, [v])]
  | (k0, l0) :: rest, k, v =>
    if k = k0 then (k0, l0 ++ [v]) :: rest else (k0, l0) :: dictAppend rest k v

/-- BoxManager.create_box_info: require the four keys, coerce quantity with
int(); a missing key or failed coercion yields no record. -/
def create_box_info (qr_data : List (String × PyVal)) : Option BoxInfo :=
  if (["id", "contents", "quantity", "destination"].all
      (fun f => (alookup qr_data f).isSome)) then
    match (alookup qr_data "quantity").bind pyToInt with
    | some q =>
      some { id := pyStr ((alookup qr_data "id").getD (.str "")),
             contents := pyStr ((alookup qr_data "contents").getD (.str "")),
             quantity := q,
             destination := pyStr ((alookup qr_data "destination").getD (.str "")) }
    | none => none
  else
    none

/-- BoxManager.add_box: when below capacity, append to boxes and to the
destination index; otherwise leave the state unchanged. The second component
is the Python return value, which is always None. -/
def add_box (s : BoxManager) (box : BoxInfo) : BoxManager × Option Bool :=
  if can_accept_more_boxes s then
    ({ boxes := s.boxes ++ [box],
       destinations_map := dictAppend s.destinations_map box.destination box }, none)
  else
    (s, none)

/-- BoxManager.get_destinations. -/
def get_destinations (s : BoxManager) : List String :=
  s.destinations_map.map (fun kv => kv.1)

/-- BoxManager.get_boxes_for_destination. -/
def get_boxes_for_destination (s : BoxManager) (destination : String) : List BoxInfo :=
  (alookup s.destinations_map destination).getD []

/-- BoxManager.remove_delivered_boxes: drop every box for the destination from
the primary collection and delete the destination key from the index. -/
def remove_delivered_boxes (s : BoxManager) (destination : String) : BoxManager :=
  { boxes := s.boxes.filter (fun box => decide (box.destination ≠ destination)),
    destinations_map :=
      if (alookup s.destinations_map destination).isSome then
        eraseKey s.destinations_map destination
      else
        s.destinations_map }

/-- Robot.handle_pickup as a transformer of the inventory state, with the
camera scan result and the arm grasp result as oracle inputs. The grasp is
only consulted when a record was built (Python short-circuit evaluation),
which does not influence the inventory. -/
def handle_pickup (s : BoxManager) (qr : Option (List (String × PyVal)))
    (grasp : Bool) : BoxManager :=
  match qr with
  | none => s
  | some qr_data =>
    match create_box_info qr_data with
    | none => s
    | some box_info => if grasp then (add_box s box_info).1 else s

/-- Exact comparison of two A* f-scores. A pair (a, p) stands for the value
a + sqrt p with p nonnegative; the code compares such values as floats, which
we model exactly by repeated squaring. -/
def leF : ℚ × ℚ → ℚ × ℚ → Bool
  | (a, p), (b, q) =>
    if a ≤ b then
      let d := b - a
      let l := p - d ^ 2 - q
      if l ≤ 0 then true else decide (l ^ 2 ≤ 4 * d ^ 2 * q)
    else
      let d := a - b
      let r := q - p - d ^ 2
      if r < 0 then false else decide (4 * d ^ 2 * p ≤ r ^ 2)

/-- Strict order on f-scores, the float < used by Python min. -/
def ltF (u v : ℚ × ℚ) : Bool :=
  ! leF v u

/-- Comparison on optional f-scores, where none models the default infinity of
f_score.get(cell, inf). -/
def fLt : Option (ℚ × ℚ) → Option (ℚ × ℚ) → Bool
  | some u, some v => ltF u v
  | some _, none => true
  | none, _ => false

/-- Python min with key over a candidate list: the earliest element whose key
is strictly below every earlier one wins. -/
def argminAux (key : Cell → Option (ℚ × ℚ)) : Cell → List Cell → Cell
  | best, [] => best
  | best, c :: rest =>
    if fLt (key c) (key best) then argminAux key c rest else argminAux key best rest

/-- Mutable state of the A* loop in PathPlanner._a_star. The open set is an
insertion-ordered duplicate-free list standing for the Python set; the three
dictionaries are insertion-ordered association lists. -/
structure AStarState where
  open_set : List Cell
  came_from : List (Cell × Cell)
  g_score : List (Cell × ℚ)
  f_score : List (Cell × (ℚ × ℚ))
  deriving DecidableEq, Repr

/-- PathPlanner._get_neighbors: the four axis neighbours of a cell, filtered
by Map.is_valid_position on the corresponding pose. -/
def get_neighbors (m : Map) (current : Cell) : List Cell :=
  (([(-1, 0), (1, 0), (0, -1), (0, 1)] : List Cell).map
      (fun d => (current.1 + d.1, current.2 + d.2))).filter
    (fun n => m.is_valid_position (cellPos n))

/-- Body of the neighbour loop in PathPlanner._a_star: relax one neighbour of
the current cell. Adjacent cell centres are at Euclidean distance exactly 1,
so the tentative g-score adds 1; the stored f-score pair stands for
tentative + sqrt(squared distance from the neighbour centre to the goal pose). -/
def processNeighbor (goal : Position) (current : Cell) (st : AStarState)
    (neighbor : Cell) : AStarState :=
  let gc := (alookup st.g_score current).getD 0
  let tentative := gc + 1
  let better :=
    match alookup st.g_score neighbor with
    | none => true
    | some gn => decide (tentative < gn)
  if better then
    { open_set := if neighbor ∈ st.open_set then st.open_set else st.open_set ++ [neighbor],
      came_from := aupdate st.came_from neighbor current,
      g_score := aupdate st.g_score neighbor tentative,
      f_score := aupdate st.f_score neighbor (tentative, distsq (cellPos neighbor) goal) }
  else
    st

/-- PathPlanner._reconstruct_path: walk the parent links back from the goal;
the fuel bound strictly exceeds the length of any acyclic parent chain. -/
def reconstructPath : ℕ → List (Cell × Cell) → Cell → Option (List Cell)
  | 0, _, _ => none
  | fuel + 1, cf, c =>
    match alookup cf c with
    | none => some [c]
    | some parent => (reconstructPath fuel cf parent).map (fun l => l ++ [c])

/-- Main loop of PathPlanner._a_star, spending one fuel unit per iteration;
an emptied frontier and exhausted fuel both yield none (the Python loop has
no fuel bound; all claims proved below either hold for every fuel or are
witnessed with fuel the run does not exhaust). -/
def aStarLoop (m : Map) (goal : Position) (goal_cell : Cell) :
    ℕ → AStarState → Option (List Cell)
  | 0, _ => none
  | fuel + 1, st =>
    match st.open_set with
    | [] => none
    | c0 :: rest =>
      let current := argminAux (alookup st.f_score) c0 rest
      if current = goal_cell then
        reconstructPath (st.came_from.length + 1) st.came_from current
      else
        let st1 : AStarState := { st with open_set := st.open_set.erase current }
        let st2 := (get_neighbors m current).foldl (processNeighbor goal current) st1
        aStarLoop m goal goal_cell fuel st2

/-- PathPlanner._a_star: initial state and loop, then conversion of the found
cell path to poses. -/
def a_star (m : Map) (fuel : ℕ) (start goal : Position) : Option (List Position) :=
  let start_cell := cellOf start
  let goal_cell := cellOf goal
  let st0 : AStarState :=
    { open_set := [start_cell],
      came_from := [],
      g_score := [(start_cell, 0)],
      f_score := [(start_cell, (0, distsq start goal))] }
  (aStarLoop m goal goal_cell fuel st0).map (fun cells => cells.map cellPos)

/-- Math.atan2 y x, via the complex argument (range (-pi, pi], 0 at the
positive x axis, matching the C convention Python uses). -/
noncomputable def atan2 (y x : ℝ) : ℝ :=
  Complex.arg { re := x, im := y }

/-- Interior pass of PathPlanner._smooth_path: keep a waypoint only when the
bearing from the last kept waypoint changes by more than 0.1 radian from the
previously recorded bearing. -/
noncomputable def smoothAux : List Position → Position → ℝ → List Position
  | [], _, _ => []
  | current :: rest, prev, current_angle =>
    let desired := atan2 ((current.y : ℝ) - (prev.y : ℝ)) ((current.x : ℝ) - (prev.x : ℝ))
    if 0.1 < |desired - current_angle| then
      current :: smoothAux rest current desired
    else
      smoothAux rest prev current_angle

/-- PathPlanner._smooth_path: start from the first waypoint and the initial
heading, run the bearing filter, then force-append the final original
waypoint when it was dropped. -/
noncomputable def smooth_path (path : List Position) : List Position :=
  match path with
  | [] => []
  | p0 :: rest =>
    let kept := p0 :: smoothAux rest p0 (p0.theta : ℝ)
    let lastP := (p0 :: rest).getLastD p0
    let lastK := kept.getLastD p0
    if lastP ≠ lastK then kept ++ [lastP] else kept

/-- PathPlanner.plan_path: A* search, NavigationError when no path was found
(Python truthiness also rejects an empty path), then smoothing. -/
noncomputable def plan_path (m : Map) (fuel : ℕ) (start goal : Position) :
    Except NavigationError (List Position) :=
  match a_star m fuel start goal with
  | none => .error .noPath
  | some path => if path = [] then .error .noPath else .ok (smooth_path path)

/-- Pose of a named destination, with an irrelevant default; callers only use
it after checking presence. -/
def posOf (m : Map) (d : String) : Position :=
  (alookup m.locations d).getD { x := 0, y := 0, theta := 0 }

/-- Key used by the min in plan_multi_drop_route: the pair stands for
sqrt(squared distance), the value PathPlanner._distance_to computes. -/
def routeKey (m : Map) (current_pos : Position) (d : String) : ℚ × ℚ :=
  (0, distsq current_pos (posOf m d))

/-- Python min with key over destination names, earliest minimum wins. -/
def argminDest (key : String → ℚ × ℚ) : String → List String → String
  | best, [] => best
  | best, c :: rest =>
    if ltF (key c) (key best) then argminDest key c rest else argminDest key best rest

/-- Loop of PathPlanner.plan_multi_drop_route: repeatedly pick the remaining
destination nearest to the current reference pose, advance the reference pose
to it, and drop it from the remaining list. Evaluating the distance key for a
destination missing from the location table raises NavigationError through
Map.get_position. -/
def route_loop (m : Map) : List String → Position → Except NavigationError (List String)
  | [], _ => .ok []
  | r0 :: rest, current_pos =>
    if (r0 :: rest).all (fun d => (alookup m.locations d).isSome) then
      match route_loop m ((r0 :: rest).erase (argminDest (routeKey m current_pos) r0 rest))
          (posOf m (argminDest (routeKey m current_pos) r0 rest)) with
      | .ok route => .ok (argminDest (routeKey m current_pos) r0 rest :: route)
      | .error e => .error e
    else
      .error .notFound
termination_by remaining _ => remaining.length
decreasing_by
  have hmem : argminDest (routeKey m current_pos) r0 rest ∈ r0 :: rest := by
    have main : ∀ (l : List String) (best : String),
        argminDest (routeKey m current_pos) best l = best ∨
          argminDest (routeKey m current_pos) best l ∈ l := by
      intro l
      induction l with
      | nil => intro best; left; rfl
      | cons c cs ih =>
        intro best
        simp only [argminDest]
        split
        · rcases ih c with h | h
          · right; rw [h]; exact List.mem_cons_self c cs
          · right; exact List.mem_cons_of_mem c h
        · rcases ih best with h | h
          · left; exact h
          · right; exact List.mem_cons_of_mem c h
    rcases main rest r0 with h | h
    · rw [h]; exact List.mem_cons_self r0 rest
    · exact List.mem_cons_of_mem r0 h
  rw [List.length_erase_of_mem hmem]
  simp [List.length_cons]

/-- PathPlanner.plan_multi_drop_route: greedy nearest-neighbour ordering
starting from the origin reference pose. -/
def plan_multi_drop_route (m : Map) (destinations : List String) :
    Except NavigationError (List String) :=
  route_loop m destinations { x := 0, y := 0, theta := 0 }

/-- Pose at rational coordinates with heading 0. -/
def pos (x y : ℚ) : Position :=
  { x := x, y := y, theta := 0 }

/-- Obstacle-free grid map with the given dimensions. -/
def freeMap (w h : Int) : Map :=
  { width := w, height := h, obstacles := [], locations := [] }

/-- Obstacle-free 5 x 5 grid of spec scenario 1. -/
def m5 : Map :=
  freeMap 5 5

/-- Grid with an obstacle on the cell (0,0), used to show that the start cell
is never checked for traversability. -/
def mObs00 : Map :=
  { width := 5, height := 5, obstacles := [(0, 0)], locations := [] }

/-- Grid in which cell (3,0) is fully enclosed by obstacle cells. -/
def mEnclosed : Map :=
  { width := 5, height := 5, obstacles := [(2, 0), (4, 0), (3, 1)], locations := [] }

/-- Grid with a full obstacle column at x = 2 (spec scenario 2). -/
def mColumn : Map :=
  { width := 5, height := 5,
    obstacles := [(2, 0), (2, 1), (2, 2), (2, 3), (2, 4)], locations := [] }

/-- Location table of spec scenario 4: A at (1,0), B at (5,0), C at (3,0). -/
def mABC : Map :=
  { width := 6, height := 1, obstacles := [],
    locations := [("A", pos 1 0), ("B", pos 5 0), ("C", pos 3 0)] }

/-- Cells 4-adjacent to a cell, in the direction order used by the source. -/
def adjCells (c : Cell) : List Cell :=
  [(c.1 - 1, c.2), (c.1 + 1, c.2), (c.1, c.2 - 1), (c.1, c.2 + 1)]

/-- Goal cell fully enclosed by obstacle cells: every 4-adjacent cell is an
obstacle or out of bounds, hence not a valid position. -/
def EnclosedGoal (m : Map) (c : Cell) : Prop :=
  ∀ n ∈ adjCells c, m.is_valid_position (cellPos n) = false

/-- Concrete parcel record family used in the capacity scenarios. -/
def bx (i : ℕ) : BoxInfo :=
  { id := toString i, contents := "c", quantity := 1, destination := "D" }

/-- Inventory state holding exactly MAX_BOXES records. -/
def full4 : BoxManager :=
  { boxes := [bx 1, bx 2, bx 3, bx 4],
    destinations_map := [("D", [bx 1, bx 2, bx 3, bx 4])] }

/-- Well-formed QR dictionary with all four required keys. -/
def qrGood : List (String × PyVal) :=
  [("id", .str "x1"), ("contents", .str "books"), ("quantity", .int 2),
   ("destination", .str "D1")]

/-- QR dictionary whose quantity value cannot be coerced to an integer
(spec scenario 5). -/
def qrAbc : List (String × PyVal) :=
  [("id", .str "x1"), ("contents", .str "books"), ("quantity", .str "abc"),
   ("destination", .str "D1")]

/-- QR dictionary missing the destination key. -/
def qrMissing : List (String × PyVal) :=
  [("id", .str "x1"), ("contents", .str "books"), ("quantity", .int 2)]

/-- Inventory operations covered by the index-consistency invariant. -/
inductive BoxOp where
  | add (b : BoxInfo)
  | remove (d : String)

/-- Effect of one inventory operation. -/
def applyOp (s : BoxManager) : BoxOp → BoxManager
  | .add b => (add_box s b).1
  | .remove d => remove_delivered_boxes s d

/-- Effect of an operation sequence started from the fresh state. -/
def applyOps (ops : List BoxOp) : BoxManager :=
  ops.foldl applyOp BoxManager.init

/-- The destination index is exactly derivable from the primary collection,
and holds a key only for destinations with at least one stored record: the
entry for each name (defaulting to the empty list when the key is absent) is
exactly the filter of the primary collection by that destination, and a
present key never maps to the empty list. -/
def IndexConsistent (s : BoxManager) : Prop :=
  ∀ d : String,
    (alookup s.destinations_map d).getD [] =
      s.boxes.filter (fun b => decide (b.destination = d)) ∧
    ((alookup s.destinations_map d).isSome = true →
      (alookup s.destinations_map d).getD [] ≠ [])

/-- Greedy property of a route: each entry minimises the Euclidean distance
from the current reference pose over itself and every later entry, and the
reference pose then advances to the chosen destination. -/
def GreedyProp (m : Map) : Position → List String → Prop
  | _, [] => True
  | cur, r :: rs =>
    (∀ d ∈ r :: rs, distR cur (posOf m r) ≤ distR cur (posOf m d)) ∧
      GreedyProp m (posOf m r) rs

/-- Cells of the straight row segment from (x1, y) to (x2, y), left to right. -/
def rowCells (x1 x2 y : Int) : List Cell :=
  (List.range (x2 - x1).toNat.succ).map (fun i : ℕ => (x1 + (i : Int), y))

/-- Real value denoted by an f-score pair. -/
noncomputable def fvalR (u : ℚ × ℚ) : ℝ :=
  (u.1 : ℝ) + Real.sqrt ((u.2 : ℚ) : ℝ)

/-- Manhattan distance between two cells, as a rational. -/
def manhattanQ (a b : Cell) : ℚ :=
  |((a.1 - b.1 : Int) : ℚ)| + |((a.2 - b.2 : Int) : ℚ)|

/-- Comparison of an optional stored f-score against a real bound: absent
entries are unconstrained, present entries have a nonnegative radicand and a
real value strictly above the bound. -/
def OptGt (o : Option (ℚ × ℚ)) (bound : ℝ) : Prop :=
  match o with
  | none => True
  | some v => 0 ≤ v.2 ∧ bound < fvalR v

/-- FAbove fs c bound: the f-score stored for c, if any, lies strictly above
the bound. -/
def FAbove (fs : List (Cell × (ℚ × ℚ))) (c : Cell) (bound : ℝ) : Prop :=
  OptGt (alookup fs c) bound

/-- Invariant of the A* state right after the straight-walk frontier cell has
been popped (erased from the open set) while its neighbours are relaxed:
every open cell is off the forward row segment, all stored f-scores of open
cells lie strictly above the straight-line cost, g-scores dominate the
Manhattan distance from the start cell, the row segment up to index k carries
exact g-scores and parent links, and the row ahead of k is untouched. -/
structure MidInv (m : Map) (x1 x2 y : Int) (k : Int) (st : AStarState) : Prop where
  nodup : st.open_set.Nodup
  open_off : ∀ c ∈ st.open_set, c.2 ≠ y ∨ c.1 < x1
  open_above : ∀ c ∈ st.open_set, FAbove st.f_score c ((x2 - x1 : Int) : ℝ)
  g_manhattan : ∀ c v, alookup st.g_score c = some v → manhattanQ (x1, y) c ≤ v
  g_seg : ∀ j : Int, 0 ≤ j → j ≤ k → alookup st.g_score (x1 + j, y) = some (j : ℚ)
  g_ahead : ∀ j : Int, k < j → j ≤ x2 - x1 → alookup st.g_score (x1 + j, y) = none
  cf_seg : ∀ j : Int, 1 ≤ j → j ≤ k →
    alookup st.came_from (x1 + j, y) = some (x1 + j - 1, y)
  cf_start : alookup st.came_from (x1, y) = none

/-- Invariant of the A* state between straight-walk iterations: the frontier
cell (x1 + k, y) is open with the exact f-score of the straight path, and
every other open cell is off the forward segment with f-score strictly above
the straight-line cost. -/
structure WalkInv (m : Map) (x1 x2 y : Int) (k : Int) (st : AStarState) : Prop where
  nodup : st.open_set.Nodup
  frontier_mem : (x1 + k, y) ∈ st.open_set
  frontier_f : alookup st.f_score (x1 + k, y) =
    some ((k : ℚ), ((x2 - x1 - k : Int) : ℚ) ^ 2)
  open_off : ∀ c ∈ st.open_set, c ≠ (x1 + k, y) → c.2 ≠ y ∨ c.1 < x1
  open_above : ∀ c ∈ st.open_set, c ≠ (x1 + k, y) →
    FAbove st.f_score c ((x2 - x1 : Int) : ℝ)
  g_manhattan : ∀ c v, alookup st.g_score c = some v → manhattanQ (x1, y) c ≤ v
  g_seg : ∀ j : Int, 0 ≤ j → j ≤ k → alookup st.g_score (x1 + j, y) = some (j : ℚ)
  g_ahead : ∀ j : Int, k < j → j ≤ x2 - x1 → alookup st.g_score (x1 + j, y) = none
  cf_seg : ∀ j : Int, 1 ≤ j → j ≤ k →
    alookup st.came_from (x1 + j, y) = some (x1 + j - 1, y)
  cf_start : alookup st.came_from (x1, y) = none

/-- One guarded relaxation: PathPlanner._a_star relaxes a candidate cell only
when Map.is_valid_position accepts it (the filter inside _get_neighbors). -/
def relaxStep (m : Map) (goal : Position) (cur : Cell) (st : AStarState)
    (n : Cell) : AStarState :=
  if m.is_valid_position (cellPos n) = true then processNeighbor goal cur st n
  else st

/-! Association list lemmas. -/

/-- Lookup misses exactly the keys not present. -/
theorem alookup_eq_none_iff {α β : Type} [DecidableEq α] (m : List (α × β)) (k : α) :
    alookup m k = none ↔ k ∉ m.map Prod.fst := by
  induction m with
  | nil => simp [alookup]
  | cons kv rest ih =>
    obtain ⟨k0, v0⟩ := kv
    by_cases h : k = k0
    · subst h; simp [alookup]
    · simp [alookup, h, ih]

/-- dictAppend extends the entry of its key by the new value. -/
theorem alookup_dictAppend_self {α β : Type} [DecidableEq α]
    (m : List (α × List β)) (k : α) (v : β) :
    alookup (dictAppend m k v) k = some ((alookup m k).getD [] ++ [v]) := by
  induction m with
  | nil => simp [dictAppend, alookup]
  | cons kv rest ih =>
    obtain ⟨k0, l0⟩ := kv
    by_cases h : k = k0
    · subst h; simp [dictAppend, alookup]
    · simp [dictAppend, alookup, h, ih]

/-- dictAppend leaves the entries of other keys unchanged. -/
theorem alookup_dictAppend_ne {α β : Type} [DecidableEq α]
    (m : List (α × List β)) (k k' : α) (v : β) (h : k' ≠ k) :
    alookup (dictAppend m k v) k' = alookup m k' := by
  induction m with
  | nil => simp [dictAppend, alookup, h]
  | cons kv rest ih =>
    obtain ⟨k0, l0⟩ := kv
    by_cases h0 : k = k0
    · subst h0; simp [dictAppend, alookup, h]
    · by_cases h1 : k' = k0
      · subst h1; simp [dictAppend, alookup, h0]
      · simp [dictAppend, alookup, h0, h1, ih]

/-- eraseKey leaves the entries of other keys unchanged. -/
theorem alookup_eraseKey_ne {α β : Type} [DecidableEq α]
    (m : List (α × β)) (k k' : α) (h : k' ≠ k) :
    alookup (eraseKey m k) k' = alookup m k' := by
  induction m with
  | nil => simp [eraseKey]
  | cons kv rest ih =>
    obtain ⟨k0, v0⟩ := kv
    by_cases h0 : k = k0
    · subst h0; simp [eraseKey, alookup, h]
    · by_cases h1 : k' = k0
      · subst h1; simp [eraseKey, alookup, h0]
      · simp [eraseKey, alookup, h0, h1, ih]

/-- eraseKey removes its key when keys are unique. -/
theorem alookup_eraseKey_self {α β : Type} [DecidableEq α]
    (m : List (α × β)) (k : α) (h : (m.map Prod.fst).Nodup) :
    alookup (eraseKey m k) k = none := by
  induction m with
  | nil => simp [eraseKey, alookup]
  | cons kv rest ih =>
    obtain ⟨k0, v0⟩ := kv
    simp only [List.map_cons, List.nodup_cons] at h
    by_cases h0 : k = k0
    · subst h0
      simp only [eraseKey, if_pos rfl]
      exact (alookup_eq_none_iff rest k).2 h.1
    · simp [eraseKey, alookup, h0, ih h.2]

/-- Keys after dictAppend: the old keys, possibly extended by the new key. -/
theorem mem_keys_dictAppend {α β : Type} [DecidableEq α]
    (m : List (α × List β)) (k x : α) (v : β) :
    x ∈ (dictAppend m k v).map Prod.fst ↔ x ∈ m.map Prod.fst ∨ x = k := by
  induction m with
  | nil => simp [dictAppend]
  | cons kv rest ih =>
    obtain ⟨k0, l0⟩ := kv
    by_cases h0 : k = k0
    · subst h0
      simp [dictAppend]
      tauto
    · simp [dictAppend, h0, ih]
      tauto

/-- dictAppend preserves key uniqueness. -/
theorem keys_dictAppend_nodup {α β : Type} [DecidableEq α]
    (m : List (α × List β)) (k : α) (v : β) (h : (m.map Prod.fst).Nodup) :
    ((dictAppend m k v).map Prod.fst).Nodup := by
  induction m with
  | nil => simp [dictAppend]
  | cons kv rest ih =>
    obtain ⟨k0, l0⟩ := kv
    simp only [List.map_cons, List.nodup_cons] at h
    by_cases h0 : k = k0
    · subst h0
      simpa [dictAppend] using h
    · simp only [dictAppend, if_neg h0, List.map_cons, List.nodup_cons]
      refine ⟨fun hmem => ?_, ih h.2⟩
      rcases (mem_keys_dictAppend rest k k0 v).1 hmem with hin | heq
      · exact h.1 hin
      · exact h0 heq.symm

/-- Keys after eraseKey form a sublist of the old keys. -/
theorem keys_eraseKey_sublist {α β : Type} [DecidableEq α]
    (m : List (α × β)) (k : α) :
    ((eraseKey m k).map Prod.fst).Sublist (m.map Prod.fst) := by
  induction m with
  | nil => simp [eraseKey]
  | cons kv rest ih =>
    obtain ⟨k0, v0⟩ := kv
    by_cases h0 : k = k0
    · subst h0
      simp only [eraseKey, if_pos rfl, List.map_cons]
      exact List.sublist_cons_self _ _
    · simp only [eraseKey, if_neg h0, List.map_cons]
      exact ih.cons₂ k0

/-! Inventory claims. -/

/-- One add keeps the record count within capacity. -/
theorem add_box_length_le (s : BoxManager) (b : BoxInfo)
    (h : s.boxes.length ≤ MAX_BOXES) :
    ((add_box s b).1).boxes.length ≤ MAX_BOXES := by
  by_cases hc : can_accept_more_boxes s = true
  · have hlt : s.boxes.length < MAX_BOXES := by
      simpa [can_accept_more_boxes] using hc
    simp only [add_box, hc, if_true, List.length_append, List.length_cons,
      List.length_nil]
    omega
  · simp [add_box, hc, h]

/-- Capacity bound carried through a fold of adds. -/
theorem foldl_add_box_length_le (adds : List BoxInfo) :
    ∀ s : BoxManager, s.boxes.length ≤ MAX_BOXES →
      (adds.foldl (fun s b => (add_box s b).1) s).boxes.length ≤ MAX_BOXES := by
  induction adds with
  | nil => intro s h; simpa using h
  | cons b rest ih => intro s h; exact ih _ (add_box_length_le s b h)

/-- Claim C2: starting from the empty inventory, no sequence of add_box calls
pushes the stored record count above the capacity MAX_BOXES = 4, and an add
against a full inventory leaves the whole state (primary collection and
destination index) unchanged. -/
theorem add_box_never_exceeds_capacity :
    (∀ adds : List BoxInfo,
        (adds.foldl (fun s b => (add_box s b).1) BoxManager.init).boxes.length
          ≤ MAX_BOXES) ∧
    (∀ s : BoxManager, ∀ b : BoxInfo,
        s.boxes.length = MAX_BOXES → (add_box s b).1 = s) := by
  constructor
  · intro adds
    exact foldl_add_box_length_le adds BoxManager.init (by simp [BoxManager.init])
  · intro s b h
    have hc : ¬ can_accept_more_boxes s = true := by
      simp [can_accept_more_boxes, h]
    simp [add_box, hc]

/-- Witness for C2 at the concrete full inventory. -/
theorem add_box_never_exceeds_capacity_witness :
    full4.boxes.length = MAX_BOXES ∧ (add_box full4 (bx 5)).1 = full4 :=
  ⟨rfl, add_box_never_exceeds_capacity.2 full4 (bx 5) rfl⟩

/-- Python add_box returns None on every input. -/
theorem add_box_snd_eq_none (s : BoxManager) (b : BoxInfo) :
    (add_box s b).2 = none := by
  by_cases hc : can_accept_more_boxes s = true <;> simp [add_box, hc]

/-- Claim C3 counterexample: add_box returns the Python value None in both the
at-capacity and the below-capacity case, never the booleans the claim states. -/
theorem add_box_return_value_counterexample :
    (add_box full4 (bx 5)).2 ≠ some false ∧
    (add_box BoxManager.init (bx 1)).2 ≠ some true := by
  rw [add_box_snd_eq_none, add_box_snd_eq_none]
  refine ⟨?_, ?_⟩ <;> intro h <;> cases h

/-- Claim C3 amended: add_box returns no value (None); at capacity it leaves
the state unchanged, and below capacity it appends the record to the primary
collection and to its destination's index entry, leaving every other index
key untouched. -/
theorem add_box_amended_behaviour :
    (∀ s b, (add_box s b).2 = none) ∧
    (∀ s : BoxManager, ∀ b : BoxInfo,
        ¬ s.boxes.length < MAX_BOXES → (add_box s b).1 = s) ∧
    (∀ s : BoxManager, ∀ b : BoxInfo, s.boxes.length < MAX_BOXES →
        (add_box s b).1.boxes = s.boxes ++ [b] ∧
        alookup (add_box s b).1.destinations_map b.destination =
          some ((alookup s.destinations_map b.destination).getD [] ++ [b]) ∧
        ∀ d, d ≠ b.destination →
          alookup (add_box s b).1.destinations_map d =
            alookup s.destinations_map d) := by
  refine ⟨add_box_snd_eq_none, ?_, ?_⟩
  · intro s b h
    have hc : ¬ can_accept_more_boxes s = true := by
      simp [can_accept_more_boxes, h]
    simp [add_box, hc]
  · intro s b h
    have hc : can_accept_more_boxes s = true := by
      simp [can_accept_more_boxes, h]
    refine ⟨by simp [add_box, hc], ?_, ?_⟩
    · simp only [add_box, hc, if_true]
      exact alookup_dictAppend_self s.destinations_map b.destination b
    · intro d hd
      simp only [add_box, hc, if_true]
      exact alookup_dictAppend_ne s.destinations_map b.destination d b hd

/-- Witness for the amended C3 at concrete inventories. -/
theorem add_box_amended_behaviour_witness :
    (add_box full4 (bx 5)).2 = none ∧ (add_box full4 (bx 5)).1 = full4 ∧
    (add_box BoxManager.init (bx 1)).1.boxes = BoxManager.init.boxes ++ [bx 1] :=
  ⟨add_box_amended_behaviour.1 full4 (bx 5),
   add_box_amended_behaviour.2.1 full4 (bx 5) (by decide),
   (add_box_amended_behaviour.2.2 BoxManager.init (bx 1) (by decide)).1⟩

/-- Claim C7: create_box_info returns none whenever one of the four required
keys is absent, and whenever the quantity value cannot be coerced to an
integer; with all keys present and a coercible quantity it builds the record
from the four fields. -/
theorem create_box_info_required_fields :
    (∀ qr_data : List (String × PyVal),
        ∀ f ∈ (["id", "contents", "quantity", "destination"] : List String),
        alookup qr_data f = none → create_box_info qr_data = none) ∧
    (∀ qr_data : List (String × PyVal), ∀ v : PyVal,
        alookup qr_data "quantity" = some v → pyToInt v = none →
        create_box_info qr_data = none) ∧
    (∀ qr_data : List (String × PyVal), ∀ v : PyVal, ∀ n : Int,
        (∀ f ∈ (["id", "contents", "quantity", "destination"] : List String),
          (alookup qr_data f).isSome = true) →
        alookup qr_data "quantity" = some v → pyToInt v = some n →
        create_box_info qr_data =
          some { id := pyStr ((alookup qr_data "id").getD (.str "")),
                 contents := pyStr ((alookup qr_data "contents").getD (.str "")),
                 quantity := n,
                 destination := pyStr ((alookup qr_data "destination").getD (.str "")) }) := by
  refine ⟨?_, ?_, ?_⟩
  · intro qr f hf hnone
    have hall : (["id", "contents", "quantity", "destination"].all
        (fun f => (alookup qr f).isSome)) = false := by
      rw [List.all_eq_false]
      exact ⟨f, hf, by simp [hnone]⟩
    simp [create_box_info, hall]
  · intro qr v hv hnone
    by_cases hall : (["id", "contents", "quantity", "destination"].all
        (fun f => (alookup qr f).isSome)) = true
    · simp [create_box_info, hall, hv, hnone]
    · simp [create_box_info, hall]
  · intro qr v n hall hv hn
    have hall2 : (["id", "contents", "quantity", "destination"].all
        (fun f => (alookup qr f).isSome)) = true := by
      rw [List.all_eq_true]
      exact hall
    simp [create_box_info, hall2, hv, hn]

/-- Witness for C7 at concrete QR dictionaries: a missing destination key, the
non-coercible quantity "abc" of spec scenario 5, and a valid dictionary. -/
theorem create_box_info_required_fields_witness :
    create_box_info qrMissing = none ∧ create_box_info qrAbc = none ∧
    create_box_info qrGood =
      some { id := "x1", contents := "books", quantity := 2, destination := "D1" } := by
  refine ⟨?_, ?_, ?_⟩
  · exact create_box_info_required_fields.1 qrMissing "destination" (by decide) (by decide)
  · exact create_box_info_required_fields.2.1 qrAbc (.str "abc") (by decide) (by decide)
  · rw [create_box_info_required_fields.2.2 qrGood (.int 2) 2 (by decide) (by decide)
      (by decide)]
    decide

/-- Filtering by a destination commutes with removing a different one. -/
theorem filter_dest_of_filter_ne (l : List BoxInfo) (d d0 : String) (hd : d ≠ d0) :
    (l.filter (fun b => decide (b.destination ≠ d0))).filter
        (fun b => decide (b.destination = d)) =
      l.filter (fun b => decide (b.destination = d)) := by
  rw [List.filter_filter]
  apply List.filter_congr
  intro b _
  by_cases hb : b.destination = d
  · have hb0 : b.destination ≠ d0 := by rw [hb]; exact hd
    simp [hb, hb0, hd]
  · simp [hb]

/-- Nothing with destination d0 survives removing d0. -/
theorem filter_dest_self_eq_nil (l : List BoxInfo) (d0 : String) :
    (l.filter (fun b => decide (b.destination ≠ d0))).filter
        (fun b => decide (b.destination = d0)) = [] := by
  rw [List.filter_filter]
  rw [List.filter_eq_nil_iff]
  intro b _
  by_cases hb : b.destination = d0 <;> simp [hb]

/-- Index consistency and key uniqueness are preserved by one inventory
operation. -/
theorem applyOp_preserves (s : BoxManager) (op : BoxOp)
    (h : IndexConsistent s) (hk : (s.destinations_map.map Prod.fst).Nodup) :
    IndexConsistent (applyOp s op) ∧
      ((applyOp s op).destinations_map.map Prod.fst).Nodup := by
  cases op with
  | add b =>
    by_cases hc : can_accept_more_boxes s = true
    · have hstate : applyOp s (.add b) =
          { boxes := s.boxes ++ [b],
            destinations_map := dictAppend s.destinations_map b.destination b } := by
        simp [applyOp, add_box, hc]
      rw [hstate]
      constructor
      · intro d
        by_cases hd : d = b.destination
        · subst hd
          refine ⟨?_, ?_⟩
          · rw [alookup_dictAppend_self, Option.getD_some, List.filter_append,
              (h b.destination).1]
            simp
          · intro _
            rw [alookup_dictAppend_self, Option.getD_some]
            simp
        · have hbd : b.destination ≠ d := fun e => hd e.symm
          refine ⟨?_, ?_⟩
          · rw [alookup_dictAppend_ne _ _ _ _ hd, List.filter_append, (h d).1]
            simp [hbd]
          · intro hsome
            rw [alookup_dictAppend_ne _ _ _ _ hd]
            rw [alookup_dictAppend_ne _ _ _ _ hd] at hsome
            exact (h d).2 hsome
      · exact keys_dictAppend_nodup _ _ _ hk
    · have hstate : applyOp s (.add b) = s := by
        simp [applyOp, add_box, hc]
      rw [hstate]
      exact ⟨h, hk⟩
  | remove d0 =>
    by_cases hpres : (alookup s.destinations_map d0).isSome = true
    · have hstate : applyOp s (.remove d0) =
          { boxes := s.boxes.filter (fun b => decide (b.destination ≠ d0)),
            destinations_map := eraseKey s.destinations_map d0 } := by
        simp [applyOp, remove_delivered_boxes, hpres]
      rw [hstate]
      constructor
      · intro d
        by_cases hd : d = d0
        · subst hd
          rw [alookup_eraseKey_self _ _ hk]
          exact ⟨(filter_dest_self_eq_nil _ _).symm, by intro hsome; cases hsome⟩
        · rw [alookup_eraseKey_ne _ _ _ hd]
          exact ⟨by rw [filter_dest_of_filter_ne _ _ _ hd]; exact (h d).1, (h d).2⟩
      · exact (keys_eraseKey_sublist _ _).nodup hk
    · have hstate : applyOp s (.remove d0) =
          { boxes := s.boxes.filter (fun b => decide (b.destination ≠ d0)),
            destinations_map := s.destinations_map } := by
        simp [applyOp, remove_delivered_boxes, hpres]
      rw [hstate]
      constructor
      · intro d
        by_cases hd : d = d0
        · subst hd
          have hnone : alookup s.destinations_map d = none := by
            cases hl : alookup s.destinations_map d with
            | none => rfl
            | some l => rw [hl] at hpres; simp at hpres
          rw [hnone]
          exact ⟨(filter_dest_self_eq_nil _ _).symm, by intro hsome; cases hsome⟩
        · exact ⟨by rw [filter_dest_of_filter_ne _ _ _ hd]; exact (h d).1, (h d).2⟩
      · exact hk

/-- Claim C8: after every sequence of add / remove operations from the fresh
state, the destination index maps each name to exactly the stored records with
that destination and holds keys only for destinations with at least one
record. -/
theorem inventory_index_consistent (ops : List BoxOp) :
    IndexConsistent (applyOps ops) := by
  suffices h : ∀ (l : List BoxOp) (s : BoxManager),
      IndexConsistent s → (s.destinations_map.map Prod.fst).Nodup →
      IndexConsistent (l.foldl applyOp s) ∧
        ((l.foldl applyOp s).destinations_map.map Prod.fst).Nodup by
    refine (h ops BoxManager.init ?_ (by simp [BoxManager.init])).1
    intro d
    simp [BoxManager.init, alookup]
  intro l
  induction l with
  | nil => intro s h hk; exact ⟨h, hk⟩
  | cons op rest ih =>
    intro s h hk
    have step := applyOp_preserves s op h hk
    exact ih _ step.1 step.2

/-- Claim C9 counterexample: with the inventory at capacity, a successful
scan, a valid record and a successful grasp still add nothing. -/
theorem handle_pickup_full_counterexample :
    create_box_info qrGood =
      some { id := "x1", contents := "books", quantity := 2, destination := "D1" } ∧
    handle_pickup full4 (some qrGood) true = full4 := by
  exact ⟨by decide, by decide⟩

/-- Claim C9 amended: handle_pickup changes the inventory exactly when the
scan yielded a dictionary, create_box_info produced a record, the grasp
succeeded and the inventory was below capacity, in which case exactly that
record is appended; a scan, record-construction or grasp failure always
leaves the inventory unchanged. -/
theorem handle_pickup_adds_iff :
    (∀ s : BoxManager, ∀ qr grasp, handle_pickup s qr grasp ≠ s ↔
      ∃ d b, qr = some d ∧ create_box_info d = some b ∧ grasp = true ∧
        s.boxes.length < MAX_BOXES ∧
        (handle_pickup s qr grasp).boxes = s.boxes ++ [b]) ∧
    (∀ s : BoxManager, ∀ qr grasp d, qr = some d → create_box_info d = none →
      handle_pickup s qr grasp = s) ∧
    (∀ s : BoxManager, ∀ qr, handle_pickup s qr false = s) := by
  refine ⟨?_, ?_, ?_⟩
  · intro s qr grasp
    constructor
    · intro hne
      cases qr with
      | none => exact absurd rfl hne
      | some d =>
        cases hcb : create_box_info d with
        | none => exact absurd (by simp [handle_pickup, hcb]) hne
        | some b =>
          cases grasp with
          | false => exact absurd (by simp [handle_pickup, hcb]) hne
          | true =>
            by_cases hcap : can_accept_more_boxes s = true
            · refine ⟨d, b, rfl, hcb, rfl, by simpa [can_accept_more_boxes] using hcap, ?_⟩
              simp [handle_pickup, hcb, add_box, hcap]
            · exact absurd (by simp [handle_pickup, hcb, add_box, hcap]) hne
    · rintro ⟨d, b, rfl, hcb, rfl, _, hboxes⟩
      intro heq
      rw [heq] at hboxes
      have := congrArg List.length hboxes
      simp at this
  · intro s qr grasp d hqr hcb
    subst hqr
    cases grasp <;> simp [handle_pickup, hcb]
  · intro s qr
    cases qr with
    | none => rfl
    | some d => cases hcb : create_box_info d with
      | none => simp [handle_pickup, hcb]
      | some b => simp [handle_pickup, hcb]

/-- Witness for the amended C9 at concrete inventories. -/
theorem handle_pickup_adds_iff_witness :
    handle_pickup BoxManager.init (some qrGood) true ≠ BoxManager.init ∧
    handle_pickup BoxManager.init (some qrAbc) true = BoxManager.init ∧
    handle_pickup full4 (some qrGood) false = full4 := by
  refine ⟨?_, ?_, ?_⟩
  · exact (handle_pickup_adds_iff.1 BoxManager.init (some qrGood) true).2
      ⟨qrGood, { id := "x1", contents := "books", quantity := 2, destination := "D1" },
        rfl, by decide, rfl, by decide, by decide⟩
  · exact handle_pickup_adds_iff.2.1 BoxManager.init (some qrAbc) true qrAbc rfl (by decide)
  · exact handle_pickup_adds_iff.2.2 full4 (some qrGood)

/-- Claim C6 counterexample: a pose with x = -1/2 truncates to column 0, so
is_valid_position accepts it although its coordinates lie outside the
[0, width) x [0, height) box. -/
theorem is_valid_position_counterexample :
    m5.is_valid_position (pos (-1/2) 0) = true ∧ ¬ ((0 : ℚ) ≤ (pos (-1/2) 0).x) := by
  have hx : pytrunc ((-1 : ℚ)/2) = 0 := by
    rw [pytrunc, if_pos (by norm_num)]
    norm_num
  have hy : pytrunc ((0 : ℚ)) = 0 := by
    rw [pytrunc, if_neg (by norm_num)]
    norm_num
  constructor
  · simp only [Map.is_valid_position, pos, hx, hy]
    norm_num [m5, freeMap]
  · norm_num [pos]

/-- Claim C6 amended: is_valid_position bounds-checks the truncated integer
cell index, not the raw coordinates: it returns false when the truncated index
falls outside [0, width) x [0, height), false when the indexed cell is an
obstacle, and true otherwise. -/
theorem is_valid_position_amended (m : Map) (p : Position) :
    (¬ (0 ≤ pytrunc p.x ∧ pytrunc p.x < m.width ∧
        0 ≤ pytrunc p.y ∧ pytrunc p.y < m.height) →
      m.is_valid_position p = false) ∧
    ((0 ≤ pytrunc p.x ∧ pytrunc p.x < m.width ∧
        0 ≤ pytrunc p.y ∧ pytrunc p.y < m.height) →
      (((pytrunc p.x, pytrunc p.y) ∈ m.obstacles → m.is_valid_position p = false) ∧
       ((pytrunc p.x, pytrunc p.y) ∉ m.obstacles → m.is_valid_position p = true))) := by
  constructor
  · intro h
    simp only [Map.is_valid_position]
    rw [if_neg h]
  · intro h
    constructor
    · intro hob
      simp only [Map.is_valid_position]
      rw [if_pos h]
      simp [hob]
    · intro hob
      simp only [Map.is_valid_position]
      rw [if_pos h]
      simp [hob]

/-- Witness for the amended C6 at concrete poses. -/
theorem is_valid_position_amended_witness :
    mObs00.is_valid_position (pos 0 0) = false ∧
    m5.is_valid_position (pos 6 0) = false ∧
    m5.is_valid_position (pos 2 3) = true := by
  refine ⟨?_, ?_, ?_⟩
  · exact ((is_valid_position_amended mObs00 (pos 0 0)).2 (by decide)).1 (by decide)
  · exact (is_valid_position_amended m5 (pos 6 0)).1 (by decide)
  · exact ((is_valid_position_amended m5 (pos 2 3)).2 (by decide)).2 (by decide)

/-! Semantics of the exact f-score comparator. -/

/-- Square root comparison against a nonnegative bound. -/
theorem sqrt_le_iff_sq {p : ℝ} (c : ℝ) (hp : 0 ≤ p) (hc : 0 ≤ c) :
    Real.sqrt p ≤ c ↔ p ≤ c ^ 2 := by
  constructor
  · intro h
    have hs := Real.sq_sqrt hp
    nlinarith [Real.sqrt_nonneg p]
  · intro h
    have h2 : Real.sqrt p ≤ Real.sqrt (c ^ 2) := Real.sqrt_le_sqrt h
    rwa [Real.sqrt_sq hc] at h2

/-- Semantic characterisation of leF: it decides exactly the comparison of
the real values a + sqrt p and b + sqrt q. -/
theorem leF_iff (a p b q : ℚ) (hp : 0 ≤ p) (hq : 0 ≤ q) :
    leF (a, p) (b, q) = true ↔ fvalR (a, p) ≤ fvalR (b, q) := by
  have hpR : (0:ℝ) ≤ (p:ℝ) := by exact_mod_cast hp
  have hqR : (0:ℝ) ≤ (q:ℝ) := by exact_mod_cast hq
  have hsq : Real.sqrt (q:ℝ) ^ 2 = (q:ℝ) := Real.sq_sqrt hqR
  have hsp : Real.sqrt (p:ℝ) ^ 2 = (p:ℝ) := Real.sq_sqrt hpR
  have hsqn : 0 ≤ Real.sqrt (q:ℝ) := Real.sqrt_nonneg _
  have hspn : 0 ≤ Real.sqrt (p:ℝ) := Real.sqrt_nonneg _
  simp only [leF, fvalR]
  by_cases hab : a ≤ b
  · have habR : (a:ℝ) ≤ (b:ℝ) := by exact_mod_cast hab
    rw [if_pos hab]
    by_cases hl : p - (b - a) ^ 2 - q ≤ 0
    · rw [if_pos hl]
      have hlR : (p:ℝ) - ((b:ℝ) - (a:ℝ)) ^ 2 - (q:ℝ) ≤ 0 := by exact_mod_cast hl
      constructor
      · intro _
        have h1 : Real.sqrt (p:ℝ) ≤ ((b:ℝ) - (a:ℝ)) + Real.sqrt (q:ℝ) := by
          rw [sqrt_le_iff_sq _ hpR (by linarith)]
          nlinarith [mul_nonneg (by linarith : (0:ℝ) ≤ (b:ℝ) - (a:ℝ)) hsqn]
        linarith
      · intro _
        rfl
    · rw [if_neg hl]
      rw [decide_eq_true_eq]
      have hlR : 0 < (p:ℝ) - ((b:ℝ) - (a:ℝ)) ^ 2 - (q:ℝ) := by
        have : ¬ ((p:ℝ) - ((b:ℝ) - (a:ℝ)) ^ 2 - (q:ℝ) ≤ 0) := by exact_mod_cast hl
        linarith
      constructor
      · intro hsqle
        have hR : ((p:ℝ) - ((b:ℝ) - (a:ℝ)) ^ 2 - (q:ℝ)) ^ 2 ≤
            4 * ((b:ℝ) - (a:ℝ)) ^ 2 * (q:ℝ) := by exact_mod_cast hsqle
        have h2 : (p:ℝ) - ((b:ℝ) - (a:ℝ)) ^ 2 - (q:ℝ) ≤
            2 * ((b:ℝ) - (a:ℝ)) * Real.sqrt (q:ℝ) := by
          nlinarith [mul_nonneg (mul_nonneg (by norm_num : (0:ℝ) ≤ 2)
            (by linarith : (0:ℝ) ≤ (b:ℝ) - (a:ℝ))) hsqn]
        have h3 : Real.sqrt (p:ℝ) ≤ ((b:ℝ) - (a:ℝ)) + Real.sqrt (q:ℝ) := by
          rw [sqrt_le_iff_sq _ hpR (by linarith)]
          nlinarith
        linarith
      · intro hreal
        have h3 : Real.sqrt (p:ℝ) ≤ ((b:ℝ) - (a:ℝ)) + Real.sqrt (q:ℝ) := by
          linarith
        have h4 : (p:ℝ) ≤ (((b:ℝ) - (a:ℝ)) + Real.sqrt (q:ℝ)) ^ 2 :=
          (sqrt_le_iff_sq _ hpR (by linarith)).1 h3
        have h5 : (p:ℝ) - ((b:ℝ) - (a:ℝ)) ^ 2 - (q:ℝ) ≤
            2 * ((b:ℝ) - (a:ℝ)) * Real.sqrt (q:ℝ) := by nlinarith
        have h6 : (((p:ℝ) - ((b:ℝ) - (a:ℝ)) ^ 2 - (q:ℝ))) ^ 2 ≤
            4 * ((b:ℝ) - (a:ℝ)) ^ 2 * (q:ℝ) := by
          nlinarith [mul_nonneg (mul_nonneg (by norm_num : (0:ℝ) ≤ 2)
            (by linarith : (0:ℝ) ≤ (b:ℝ) - (a:ℝ))) hsqn]
        exact_mod_cast h6
  · have habR : (b:ℝ) < (a:ℝ) := by
      have : ¬ ((a:ℝ) ≤ (b:ℝ)) := by exact_mod_cast hab
      linarith
    rw [if_neg hab]
    by_cases hr : q - p - (a - b) ^ 2 < 0
    · rw [if_pos hr]
      have hrR : (q:ℝ) - (p:ℝ) - ((a:ℝ) - (b:ℝ)) ^ 2 < 0 := by exact_mod_cast hr
      constructor
      · intro h
        simp at h
      · intro hreal
        exfalso
        have h3 : Real.sqrt (p:ℝ) + ((a:ℝ) - (b:ℝ)) ≤ Real.sqrt (q:ℝ) := by linarith
        have h4 : (Real.sqrt (p:ℝ) + ((a:ℝ) - (b:ℝ))) ^ 2 ≤ (q:ℝ) := by
          nlinarith
        nlinarith [mul_nonneg (mul_nonneg (by norm_num : (0:ℝ) ≤ 2)
          (by linarith : (0:ℝ) ≤ (a:ℝ) - (b:ℝ))) hspn]
    · rw [if_neg hr]
      rw [decide_eq_true_eq]
      have hrR : 0 ≤ (q:ℝ) - (p:ℝ) - ((a:ℝ) - (b:ℝ)) ^ 2 := by
        have : ¬ ((q:ℝ) - (p:ℝ) - ((a:ℝ) - (b:ℝ)) ^ 2 < 0) := by exact_mod_cast hr
        linarith
      constructor
      · intro hsqle
        have hR : 4 * ((a:ℝ) - (b:ℝ)) ^ 2 * (p:ℝ) ≤
            ((q:ℝ) - (p:ℝ) - ((a:ℝ) - (b:ℝ)) ^ 2) ^ 2 := by exact_mod_cast hsqle
        have h2 : 2 * ((a:ℝ) - (b:ℝ)) * Real.sqrt (p:ℝ) ≤
            (q:ℝ) - (p:ℝ) - ((a:ℝ) - (b:ℝ)) ^ 2 := by
          nlinarith [mul_nonneg (mul_nonneg (by norm_num : (0:ℝ) ≤ 2)
            (by linarith : (0:ℝ) ≤ (a:ℝ) - (b:ℝ))) hspn]
        have h3 : (Real.sqrt (p:ℝ) + ((a:ℝ) - (b:ℝ))) ^ 2 ≤ (q:ℝ) := by nlinarith
        have h4 : Real.sqrt (p:ℝ) + ((a:ℝ) - (b:ℝ)) ≤ Real.sqrt (q:ℝ) := by
          have h5 : Real.sqrt ((Real.sqrt (p:ℝ) + ((a:ℝ) - (b:ℝ))) ^ 2) ≤
              Real.sqrt (q:ℝ) := Real.sqrt_le_sqrt h3
          rwa [Real.sqrt_sq (by linarith)] at h5
        linarith
      · intro hreal
        have h3 : Real.sqrt (p:ℝ) + ((a:ℝ) - (b:ℝ)) ≤ Real.sqrt (q:ℝ) := by linarith
        have h4 : (Real.sqrt (p:ℝ) + ((a:ℝ) - (b:ℝ))) ^ 2 ≤ (q:ℝ) := by nlinarith
        have h5 : 2 * ((a:ℝ) - (b:ℝ)) * Real.sqrt (p:ℝ) ≤
            (q:ℝ) - (p:ℝ) - ((a:ℝ) - (b:ℝ)) ^ 2 := by nlinarith
        have h6 : 4 * ((a:ℝ) - (b:ℝ)) ^ 2 * (p:ℝ) ≤
            ((q:ℝ) - (p:ℝ) - ((a:ℝ) - (b:ℝ)) ^ 2) ^ 2 := by
          nlinarith [mul_nonneg (mul_nonneg (by norm_num : (0:ℝ) ≤ 2)
            (by linarith : (0:ℝ) ≤ (a:ℝ) - (b:ℝ))) hspn]
        exact_mod_cast h6

/-- Strict comparator semantics. -/
theorem ltF_iff (u v : ℚ × ℚ) (hu : 0 ≤ u.2) (hv : 0 ≤ v.2) :
    ltF u v = true ↔ fvalR u < fvalR v := by
  obtain ⟨a, p⟩ := u
  obtain ⟨b, q⟩ := v
  constructor
  · intro h
    by_contra hc
    push_neg at hc
    have hle : leF (b, q) (a, p) = true := (leF_iff b q a p hv hu).2 hc
    rw [ltF, hle] at h
    simp at h
  · intro h
    rw [ltF]
    have hle : ¬ leF (b, q) (a, p) = true :=
      fun hc => absurd ((leF_iff b q a p hv hu).1 hc) (not_le.2 h)
    rw [Bool.not_eq_true] at hle
    rw [hle]
    rfl

/-- Negated strict comparator semantics. -/
theorem ltF_eq_false_iff (u v : ℚ × ℚ) (hu : 0 ≤ u.2) (hv : 0 ≤ v.2) :
    ltF u v = false ↔ fvalR v ≤ fvalR u := by
  constructor
  · intro h
    by_contra hc
    push_neg at hc
    have := (ltF_iff u v hu hv).2 hc
    rw [h] at this
    cases this
  · intro h
    by_contra hc
    rw [Bool.not_eq_false] at hc
    exact absurd ((ltF_iff u v hu hv).1 hc) (not_lt.2 h)

/-! Greedy multi-drop routing (claim C4). -/

/-- Python min result lies among best :: candidates. -/
theorem argminDest_mem_cons (key : String → ℚ × ℚ) (best : String) (l : List String) :
    argminDest key best l ∈ best :: l := by
  induction l generalizing best with
  | nil => simp [argminDest]
  | cons c rest ih =>
    simp only [argminDest]
    by_cases h : ltF (key c) (key best) = true
    · rw [if_pos h]
      rcases List.mem_cons.1 (ih c) with h1 | h1
      · rw [h1]; exact List.mem_cons_of_mem _ (List.mem_cons_self _ _)
      · exact List.mem_cons_of_mem _ (List.mem_cons_of_mem _ h1)
    · rw [if_neg h]
      rcases List.mem_cons.1 (ih best) with h1 | h1
      · rw [h1]; exact List.mem_cons_self _ _
      · exact List.mem_cons_of_mem _ (List.mem_cons_of_mem _ h1)

/-- Python min result minimises the real-valued key over best :: candidates. -/
theorem argminDest_min (key : String → ℚ × ℚ) (hkey : ∀ d, 0 ≤ (key d).2)
    (best : String) (l : List String) :
    ∀ c ∈ best :: l, fvalR (key (argminDest key best l)) ≤ fvalR (key c) := by
  induction l generalizing best with
  | nil =>
    intro c hc
    rw [List.mem_singleton] at hc
    subst hc
    simp [argminDest]
  | cons c0 rest ih =>
    intro c hc
    simp only [argminDest]
    by_cases h : ltF (key c0) (key best) = true
    · rw [if_pos h]
      have hc0b : fvalR (key c0) < fvalR (key best) :=
        (ltF_iff _ _ (hkey c0) (hkey best)).1 h
      rcases List.mem_cons.1 hc with h1 | h1
      · subst h1
        have := ih c0 c0 (List.mem_cons_self _ _)
        linarith
      · exact ih c0 c h1
    · rw [if_neg h]
      rw [Bool.not_eq_true] at h
      have hbc0 : fvalR (key best) ≤ fvalR (key c0) :=
        (ltF_eq_false_iff (key c0) (key best) (hkey c0) (hkey best)).1 h
      rcases List.mem_cons.1 hc with h1 | h1
      · subst h1
        exact ih c c (List.mem_cons_self _ _)
      · rcases List.mem_cons.1 h1 with h2 | h2
        · subst h2
          have := ih best best (List.mem_cons_self _ _)
          linarith
        · exact ih best c (List.mem_cons_of_mem _ h2)

/-- Squared distances are nonnegative. -/
theorem distsq_nonneg (a b : Position) : 0 ≤ distsq a b := by
  unfold distsq
  positivity

/-- The route key denotes the Euclidean distance computed by _distance_to. -/
theorem fvalR_routeKey (m : Map) (cur : Position) (d : String) :
    fvalR (routeKey m cur d) = distR cur (posOf m d) := by
  simp [fvalR, routeKey, distR]

/-- Correctness of the routing loop: with all destinations present, it
returns a permutation of the remaining list satisfying the greedy property. -/
theorem route_loop_spec (m : Map) (n : ℕ) :
    ∀ remaining : List String, remaining.length ≤ n → ∀ cur : Position,
      (∀ d ∈ remaining, (alookup m.locations d).isSome = true) →
      ∃ route, route_loop m remaining cur = .ok route ∧
        route.Perm remaining ∧ GreedyProp m cur route := by
  induction n with
  | zero =>
    intro remaining hlen cur _
    have hnil : remaining = [] := List.eq_nil_of_length_eq_zero (Nat.le_zero.1 hlen)
    subst hnil
    exact ⟨[], by simp [route_loop], List.Perm.refl [], trivial⟩
  | succ n ih =>
    intro remaining hlen cur hall
    match remaining with
    | [] => exact ⟨[], by simp [route_loop], List.Perm.refl [], trivial⟩
    | r0 :: rest =>
      have hallb : ((r0 :: rest).all (fun d => (alookup m.locations d).isSome)) = true := by
        rw [List.all_eq_true]
        exact hall
      have hmem : argminDest (routeKey m cur) r0 rest ∈ r0 :: rest :=
        argminDest_mem_cons _ _ _
      have hlen2 : ((r0 :: rest).erase (argminDest (routeKey m cur) r0 rest)).length ≤ n := by
        rw [List.length_erase_of_mem hmem]
        simp only [List.length_cons] at hlen ⊢
        omega
      have hall2 : ∀ d ∈ (r0 :: rest).erase (argminDest (routeKey m cur) r0 rest),
          (alookup m.locations d).isSome = true :=
        fun d hd => hall d (List.mem_of_mem_erase hd)
      obtain ⟨route, hroute, hperm, hgreedy⟩ :=
        ih _ hlen2 (posOf m (argminDest (routeKey m cur) r0 rest)) hall2
      refine ⟨argminDest (routeKey m cur) r0 rest :: route, ?_, ?_, ?_⟩
      · simp only [route_loop]
        rw [if_pos hallb, hroute]
      · exact (hperm.cons _).trans (List.perm_cons_erase hmem).symm
      · simp only [GreedyProp]
        refine ⟨?_, hgreedy⟩
        intro d hd
        have hd2 : d ∈ r0 :: rest := by
          rcases List.mem_cons.1 hd with h1 | h1
          · rw [h1]; exact hmem
          · exact List.mem_of_mem_erase ((hperm.mem_iff).1 h1)
        rw [← fvalR_routeKey, ← fvalR_routeKey]
        exact argminDest_min (routeKey m cur) (fun d => distsq_nonneg _ _) r0 rest d hd2

/-- Claim C4: over destinations all present in the location table,
plan_multi_drop_route returns a route visiting each destination exactly once
(a permutation of the input), and at each step the appended destination
minimises the Euclidean distance from the current reference pose, which
starts at the map origin and advances to each chosen destination; on the
concrete A=(1,0), B=(5,0), C=(3,0) table the route is [A, C, B]. -/
theorem plan_multi_drop_route_greedy :
    (∀ (m : Map) (dests : List String),
      (∀ d ∈ dests, (alookup m.locations d).isSome = true) →
      ∃ route, plan_multi_drop_route m dests = .ok route ∧
        route.Perm dests ∧ GreedyProp m (pos 0 0) route) ∧
    plan_multi_drop_route mABC ["A", "B", "C"] = .ok ["A", "C", "B"] := by
  constructor
  · intro m dests hall
    exact route_loop_spec m dests.length dests le_rfl (pos 0 0) hall
  · have eBA : (("B" : String) = "A") = False := eq_false (by decide)
    have eCA : (("C" : String) = "A") = False := eq_false (by decide)
    have eCB : (("C" : String) = "B") = False := eq_false (by decide)
    have eBC : (("B" : String) = "C") = False := eq_false (by decide)
    have eAB : (("A" : String) = "B") = False := eq_false (by decide)
    have eAC : (("A" : String) = "C") = False := eq_false (by decide)
    norm_num [plan_multi_drop_route, route_loop, argminDest, routeKey, posOf,
      distsq, ltF, leF, alookup, mABC, pos, List.erase_cons, eBA, eCA, eCB,
      eBC, eAB, eAC, beq_iff_eq]

/-- Witness for C4 at the concrete three-destination table. -/
theorem plan_multi_drop_route_greedy_witness :
    ∃ route, plan_multi_drop_route mABC ["A", "B", "C"] = .ok route ∧
      route.Perm ["A", "B", "C"] ∧ GreedyProp mABC (pos 0 0) route :=
  plan_multi_drop_route_greedy.1 mABC ["A", "B", "C"] (by decide)

/-! Basic lemmas about the A* state components. -/

/-- aupdate stores the new value under its key. -/
theorem alookup_aupdate_self {α β : Type} [DecidableEq α]
    (m : List (α × β)) (k : α) (v : β) :
    alookup (aupdate m k v) k = some v := by
  induction m with
  | nil => simp [aupdate, alookup]
  | cons kv rest ih =>
    obtain ⟨k0, v0⟩ := kv
    by_cases h : k = k0
    · subst h; simp [aupdate, alookup]
    · simp [aupdate, alookup, h, ih]

/-- aupdate leaves other keys unchanged. -/
theorem alookup_aupdate_ne {α β : Type} [DecidableEq α]
    (m : List (α × β)) (k k' : α) (v : β) (h : k' ≠ k) :
    alookup (aupdate m k v) k' = alookup m k' := by
  induction m with
  | nil => simp [aupdate, alookup, h]
  | cons kv rest ih =>
    obtain ⟨k0, v0⟩ := kv
    by_cases h0 : k = k0
    · subst h0; simp [aupdate, alookup, h]
    · by_cases h1 : k' = k0
      · subst h1; simp [aupdate, alookup, h0]
      · simp [aupdate, alookup, h0, h1, ih]

/-- Entries after aupdate come from the old list or are the new pair. -/
theorem mem_aupdate {α β : Type} [DecidableEq α]
    (m : List (α × β)) (k : α) (v : β) :
    ∀ ce ∈ aupdate m k v, ce ∈ m ∨ ce = (k, v) := by
  induction m with
  | nil => intro ce hce; simp [aupdate] at hce; simp [hce]
  | cons kv rest ih =>
    obtain ⟨k0, v0⟩ := kv
    intro ce hce
    by_cases h : k = k0
    · subst h
      simp only [aupdate, if_pos rfl] at hce
      rcases List.mem_cons.1 hce with h1 | h1
      · right; rw [h1]
      · left; exact List.mem_cons_of_mem _ h1
    · simp only [aupdate, if_neg h] at hce
      rcases List.mem_cons.1 hce with h1 | h1
      · left; rw [h1]; exact List.mem_cons_self _ _
      · rcases ih ce h1 with h2 | h2
        · left; exact List.mem_cons_of_mem _ h2
        · right; exact h2

/-- A successful lookup comes from an entry of the list. -/
theorem alookup_isSome_mem {α β : Type} [DecidableEq α]
    (m : List (α × β)) (k : α) (v : β) (h : alookup m k = some v) : (k, v) ∈ m := by
  induction m with
  | nil => simp [alookup] at h
  | cons kv rest ih =>
    obtain ⟨k0, v0⟩ := kv
    by_cases h0 : k = k0
    · subst h0
      have hv : v0 = v := by simpa [alookup] using h
      subst hv
      exact List.mem_cons_self _ _
    · simp only [alookup, if_neg h0] at h
      exact List.mem_cons_of_mem _ (ih h)

/-- Python min over cells lies among best :: candidates. -/
theorem argminAux_mem (key : Cell → Option (ℚ × ℚ)) (best : Cell) (l : List Cell) :
    argminAux key best l ∈ best :: l := by
  induction l generalizing best with
  | nil => simp [argminAux]
  | cons c rest ih =>
    simp only [argminAux]
    by_cases h : fLt (key c) (key best) = true
    · rw [if_pos h]
      rcases List.mem_cons.1 (ih c) with h1 | h1
      · rw [h1]; exact List.mem_cons_of_mem _ (List.mem_cons_self _ _)
      · exact List.mem_cons_of_mem _ (List.mem_cons_of_mem _ h1)
    · rw [if_neg h]
      rcases List.mem_cons.1 (ih best) with h1 | h1
      · rw [h1]; exact List.mem_cons_self _ _
      · exact List.mem_cons_of_mem _ (List.mem_cons_of_mem _ h1)

/-- Python min returns the unique cell whose stored f-score is at most a bound
when the f-score of every other candidate lies strictly above the bound. -/
theorem argminAux_unique (key : Cell → Option (ℚ × ℚ)) (m0 : Cell) (u0 : ℚ × ℚ)
    (hk0 : key m0 = some u0) (h0 : 0 ≤ u0.2) (bound : ℝ) (hbound : fvalR u0 ≤ bound) :
    ∀ (l : List Cell) (best : Cell),
      m0 ∈ best :: l →
      (∀ c ∈ best :: l, c ≠ m0 → OptGt (key c) bound) →
      argminAux key best l = m0 := by
  intro l
  induction l with
  | nil =>
    intro best hmem _
    rcases List.mem_cons.1 hmem with h | h
    · exact h.symm
    · simp at h
  | cons c cs ih =>
    intro best hmem habove
    simp only [argminAux]
    by_cases hb : best = m0
    · subst hb
      have hkeep : fLt (key c) (key best) = false := by
        by_cases hc : c = best
        · subst hc
          rw [hk0]
          simp only [fLt, ltF]
          rw [(leF_iff u0.1 u0.2 u0.1 u0.2 h0 h0).2 le_rfl]
          rfl
        · have hgt := habove c (List.mem_cons_of_mem _ (List.mem_cons_self _ _)) hc
          rw [hk0]
          cases hkc : key c with
          | none => rfl
          | some v =>
            rw [hkc] at hgt
            simp only [OptGt] at hgt
            simp only [fLt]
            rw [Bool.eq_false_iff]
            intro hlt
            have := (ltF_iff v u0 hgt.1 h0).1 hlt
            linarith [hgt.2]
      rw [if_neg (by rw [hkeep]; intro h; cases h)]
      refine ih best (List.mem_cons_self _ _) ?_
      intro d hd hdm
      rcases List.mem_cons.1 hd with h1 | h1
      · exact habove d (h1 ▸ List.mem_cons_self _ _) hdm
      · exact habove d (List.mem_cons_of_mem _ (List.mem_cons_of_mem _ h1)) hdm
    · have hbgt := habove best (List.mem_cons_self _ _) hb
      by_cases hc : c = m0
      · subst hc
        have hswitch : fLt (key c) (key best) = true := by
          rw [hk0]
          cases hkb : key best with
          | none => rfl
          | some v =>
            rw [hkb] at hbgt
            simp only [OptGt] at hbgt
            simp only [fLt]
            exact (ltF_iff u0 v h0 hbgt.1).2 (by linarith [hbgt.2])
        rw [if_pos hswitch]
        refine ih c (List.mem_cons_self _ _) ?_
        intro d hd hdm
        rcases List.mem_cons.1 hd with h1 | h1
        · exact absurd h1 hdm
        · exact habove d (List.mem_cons_of_mem _ (List.mem_cons_of_mem _ h1)) hdm
      · have hmem2 : m0 ∈ c :: cs := by
          rcases List.mem_cons.1 hmem with h1 | h1
          · exact absurd h1.symm hb
          · exact h1
        have hmem3 : m0 ∈ cs := by
          rcases List.mem_cons.1 hmem2 with h1 | h1
          · exact absurd h1.symm hc
          · exact h1
        by_cases hlt : fLt (key c) (key best) = true
        · rw [if_pos hlt]
          refine ih c (List.mem_cons_of_mem _ hmem3) ?_
          intro d hd hdm
          rcases List.mem_cons.1 hd with h1 | h1
          · exact habove d (h1 ▸ List.mem_cons_of_mem _ (List.mem_cons_self _ _)) hdm
          · exact habove d (List.mem_cons_of_mem _ (List.mem_cons_of_mem _ h1)) hdm
        · rw [if_neg hlt]
          refine ih best (List.mem_cons_of_mem _ hmem3) ?_
          intro d hd hdm
          rcases List.mem_cons.1 hd with h1 | h1
          · exact habove d (h1 ▸ List.mem_cons_self _ _) hdm
          · exact habove d (List.mem_cons_of_mem _ (List.mem_cons_of_mem _ h1)) hdm

/-- Open-set membership after relaxing one neighbour. -/
theorem mem_open_processNeighbor (goal : Position) (cur : Cell) (st : AStarState)
    (n c : Cell) (h : c ∈ (processNeighbor goal cur st n).open_set) :
    c ∈ st.open_set ∨ c = n := by
  simp only [processNeighbor] at h
  cases hg : alookup st.g_score n with
  | none =>
    rw [hg] at h
    simp only [if_pos rfl] at h
    by_cases hin : n ∈ st.open_set
    · rw [if_pos hin] at h; exact Or.inl h
    · rw [if_neg hin] at h
      rcases List.mem_append.1 h with h1 | h1
      · exact Or.inl h1
      · right; simpa using h1
  | some gn =>
    rw [hg] at h
    by_cases hlt : ((alookup st.g_score cur).getD 0 + 1 < gn)
    · rw [if_pos (decide_eq_true hlt)] at h
      by_cases hin : n ∈ st.open_set
      · rw [if_pos hin] at h; exact Or.inl h
      · rw [if_neg hin] at h
        rcases List.mem_append.1 h with h1 | h1
        · exact Or.inl h1
        · right; simpa using h1
    · rw [if_neg (by simp [hlt])] at h
      exact Or.inl h

/-- Open-set membership after relaxing a whole neighbour list. -/
theorem mem_open_foldl (goal : Position) (cur : Cell) :
    ∀ (ns : List Cell) (st : AStarState) (c : Cell),
      c ∈ ((ns.foldl (processNeighbor goal cur) st).open_set) →
      c ∈ st.open_set ∨ c ∈ ns := by
  intro ns
  induction ns with
  | nil => intro st c h; exact Or.inl h
  | cons n ns ih =>
    intro st c h
    rcases ih _ c h with h1 | h1
    · rcases mem_open_processNeighbor goal cur st n c h1 with h2 | h2
      · exact Or.inl h2
      · right; rw [h2]; exact List.mem_cons_self _ _
    · right; exact List.mem_cons_of_mem _ h1

/-- Characterisation of neighbour membership. -/
theorem mem_get_neighbors (m : Map) (cur c : Cell) :
    c ∈ get_neighbors m cur ↔
      c ∈ adjCells cur ∧ m.is_valid_position (cellPos c) = true := by
  simp only [get_neighbors, adjCells, List.mem_filter, List.mem_map,
    List.mem_cons, List.mem_singleton, List.not_mem_nil, or_false]
  constructor
  · rintro ⟨⟨d, hd, rfl⟩, hval⟩
    refine ⟨?_, hval⟩
    rcases hd with h | h | h | h <;> subst h <;> simp [Prod.ext_iff] <;> omega
  · rintro ⟨hadj, hval⟩
    refine ⟨?_, hval⟩
    rcases hadj with h | h | h | h
    · exact ⟨(-1, 0), by simp, by rw [h]; simp [Prod.ext_iff]; omega⟩
    · exact ⟨(1, 0), by simp, by rw [h]; simp [Prod.ext_iff]⟩
    · exact ⟨(0, -1), by simp, by rw [h]; simp [Prod.ext_iff]; omega⟩
    · exact ⟨(0, 1), by simp, by rw [h]; simp [Prod.ext_iff]⟩

/-- Adjacency of grid cells is symmetric. -/
theorem adjCells_symm (a b : Cell) (h : a ∈ adjCells b) : b ∈ adjCells a := by
  obtain ⟨a1, a2⟩ := a
  obtain ⟨b1, b2⟩ := b
  simp only [adjCells, List.mem_cons, List.mem_singleton, Prod.mk.injEq,
    List.not_mem_nil, or_false] at h ⊢
  rcases h with h | h | h | h <;> omega

/-- Truncation is the identity on integer-valued coordinates. -/
theorem pytrunc_intCast (n : Int) : pytrunc ((n : ℚ)) = n := by
  unfold pytrunc
  by_cases h : ((n : ℚ)) < 0
  · rw [if_pos h, Int.ceil_intCast]
  · rw [if_neg h, Int.floor_intCast]

/-- Validity of a cell-centre pose in terms of the cell. -/
theorem is_valid_cellPos_iff (m : Map) (c : Cell) :
    m.is_valid_position (cellPos c) = true ↔
      0 ≤ c.1 ∧ c.1 < m.width ∧ 0 ≤ c.2 ∧ c.2 < m.height ∧ c ∉ m.obstacles := by
  obtain ⟨cx, cy⟩ := c
  simp only [Map.is_valid_position, cellPos, pytrunc_intCast]
  by_cases hb : 0 ≤ cx ∧ cx < m.width ∧ 0 ≤ cy ∧ cy < m.height
  · rw [if_pos hb]
    simp [hb.1, hb.2.1, hb.2.2.1, hb.2.2.2]
  · rw [if_neg hb]
    constructor
    · intro hcon
      simp at hcon
    · intro hcon
      exact absurd ⟨hcon.1, hcon.2.1, hcon.2.2.1, hcon.2.2.2.1⟩ hb

/-- Generic trapped-region argument: if a property of cells excludes the goal
cell, holds for the start of every relaxation, and is preserved by valid
neighbour expansion, then the A* loop never returns a path, for any fuel. -/
theorem aStarLoop_invariant_none (m : Map) (goal : Position) (gc : Cell)
    (P : Cell → Prop)
    (hPgc : ∀ c, P c → c ≠ gc)
    (hstep : ∀ cur c, P cur → c ∈ get_neighbors m cur → P c) :
    ∀ (fuel : ℕ) (st : AStarState), (∀ c ∈ st.open_set, P c) →
      aStarLoop m goal gc fuel st = none := by
  intro fuel
  induction fuel with
  | zero => intro st _; rfl
  | succ fuel ih =>
    intro st hP
    cases hop : st.open_set with
    | nil => simp [aStarLoop, hop]
    | cons c0 rest =>
      have hPl : ∀ c ∈ c0 :: rest, P c := by rw [← hop]; exact hP
      have hcur : argminAux (alookup st.f_score) c0 rest ∈ c0 :: rest :=
        argminAux_mem _ _ _
      have hPcur : P (argminAux (alookup st.f_score) c0 rest) := hPl _ hcur
      simp only [aStarLoop, hop]
      rw [if_neg (hPgc _ hPcur)]
      apply ih
      intro c hc
      rcases mem_open_foldl goal _ _ _ c hc with h1 | h1
      · exact hPl c (List.mem_of_mem_erase h1)
      · exact hstep _ c hPcur h1

/-! No-path behaviour (claim C5). -/

/-- Smoothing keeps a single-waypoint path unchanged. -/
theorem smooth_path_singleton (p : Position) : smooth_path [p] = [p] := by
  simp [smooth_path, smoothAux]

/-- Reconstruction at a cell without parent link. -/
theorem reconstructPath_none (fuel : ℕ) (cf : List (Cell × Cell)) (c : Cell)
    (h : alookup cf c = none) : reconstructPath (fuel + 1) cf c = some [c] := by
  simp [reconstructPath, h]

/-- One A* iteration that pops the goal reconstructs the path. -/
theorem aStarLoop_goal_hit (m : Map) (goal : Position) (gc : Cell) (fuel : ℕ)
    (st : AStarState) (c0 : Cell) (rest : List Cell)
    (hop : st.open_set = c0 :: rest)
    (hmin : argminAux (alookup st.f_score) c0 rest = gc) :
    aStarLoop m goal gc (fuel + 1) st =
      reconstructPath (st.came_from.length + 1) st.came_from gc := by
  simp [aStarLoop, hop, hmin]

/-- Claim C5 amended: plan_path raises the no-path NavigationError exactly
when the A* loop yields no path; whenever the goal cell is fully enclosed by
obstacle cells and the start cell is neither the goal cell nor 4-adjacent to
it, the search can never reach the goal and plan_path errors for every fuel;
and on the spec's full-obstacle-column grid (column x = 2, start (0,0), goal
(3,0)) plan_path errors for every fuel. -/
theorem plan_path_no_path_error :
    (∀ (m : Map) (fuel : ℕ) (start goal : Position),
        a_star m fuel start goal = none →
        plan_path m fuel start goal = .error .noPath) ∧
    (∀ (m : Map) (fuel : ℕ) (start goal : Position),
        EnclosedGoal m (cellOf goal) →
        cellOf start ≠ cellOf goal →
        cellOf goal ∉ adjCells (cellOf start) →
        plan_path m fuel start goal = .error .noPath) ∧
    (∀ fuel : ℕ, plan_path mColumn fuel (pos 0 0) (pos 3 0) = .error .noPath) := by
  have part1 : ∀ (m : Map) (fuel : ℕ) (start goal : Position),
      a_star m fuel start goal = none →
      plan_path m fuel start goal = .error .noPath := by
    intro m fuel start goal h
    simp [plan_path, h]
  refine ⟨part1, ?_, ?_⟩
  · intro m fuel start goal hence hne hadj
    apply part1
    simp only [a_star]
    rw [aStarLoop_invariant_none m goal (cellOf goal)
      (fun c => c ≠ cellOf goal ∧ cellOf goal ∉ adjCells c)
      (fun c hc => hc.1)
      ?_ fuel _ ?_]
    · rfl
    · intro cur c hc hn
      rw [mem_get_neighbors] at hn
      constructor
      · intro hcg
        exact hc.2 (hcg ▸ hn.1)
      · intro hgc
        have hcadj : c ∈ adjCells (cellOf goal) := adjCells_symm _ _ hgc
        have := hence c hcadj
        rw [hn.2] at this
        cases this
    · intro c hcmem
      have : c = cellOf start := by simpa using hcmem
      rw [this]
      exact ⟨hne, hadj⟩
  · intro fuel
    apply part1
    have hstart : cellOf (pos 0 0) = ((0 : Int), (0 : Int)) := by
      norm_num [cellOf, pos, pytrunc]
    have hgoal : cellOf (pos 3 0) = ((3 : Int), (0 : Int)) := by
      norm_num [cellOf, pos, pytrunc]
    simp only [a_star]
    rw [hstart, hgoal]
    rw [aStarLoop_invariant_none mColumn (pos 3 0) ((3 : Int), (0 : Int))
      (fun c => c.1 ≤ 1) ?_ ?_ fuel _ ?_]
    · rfl
    · intro c hc
      intro hceq
      rw [hceq] at hc
      simp at hc
    · intro cur c hc hn
      obtain ⟨cx, cy⟩ := c
      rw [mem_get_neighbors] at hn
      have hbounds := (is_valid_cellPos_iff mColumn (cx, cy)).1 hn.2
      have hobs : ((cx, cy) : Cell) ∉ mColumn.obstacles := hbounds.2.2.2.2
      have hc' : cur.1 ≤ 1 := hc
      have hx2 : cx ≤ cur.1 + 1 := by
        have hadj := hn.1
        simp only [adjCells, List.mem_cons, List.mem_singleton, Prod.mk.injEq,
          List.not_mem_nil, or_false] at hadj
        rcases hadj with h | h | h | h <;> omega
      show cx ≤ 1
      by_cases hc2 : cx = 2
      · exfalso
        apply hobs
        have hol : mColumn.obstacles =
            [((2 : Int), (0 : Int)), (2, 1), (2, 2), (2, 3), (2, 4)] := rfl
        have hhh : mColumn.height = 5 := rfl
        have hy1 : 0 ≤ cy := hbounds.2.2.1
        have hy2 : cy < 5 := hhh ▸ hbounds.2.2.2.1
        subst hc2
        rw [hol]
        simp only [List.mem_cons, List.mem_singleton, Prod.mk.injEq,
          List.not_mem_nil, or_false, true_and]
        omega
      · omega
    · intro c hcmem
      have : c = ((0 : Int), (0 : Int)) := by simpa using hcmem
      rw [this]
      norm_num

/-- Claim C5 counterexample: in mEnclosed the goal cell (3,0) is fully
enclosed by obstacle cells, yet calling plan_path with the start equal to the
goal returns a one-waypoint path instead of raising NavigationError. -/
theorem plan_path_enclosed_counterexample :
    EnclosedGoal mEnclosed (cellOf (pos 3 0)) ∧
    plan_path mEnclosed 5 (pos 3 0) (pos 3 0) = .ok [cellPos (3, 0)] := by
  constructor
  · simp only [EnclosedGoal]
    decide
  · have hgoal : cellOf (pos 3 0) = ((3 : Int), (0 : Int)) := by
      norm_num [cellOf, pos, pytrunc]
    have hstar : a_star mEnclosed 5 (pos 3 0) (pos 3 0) = some [cellPos (3, 0)] := by
      simp only [a_star]
      rw [hgoal]
      rw [show (5 : ℕ) = 4 + 1 from rfl]
      rw [aStarLoop_goal_hit _ _ _ _ _ ((3 : Int), (0 : Int)) [] rfl (by simp [argminAux])]
      rw [reconstructPath_none _ _ _ (by simp [alookup])]
      rfl
    simp [plan_path, hstar, smooth_path_singleton]

/-- Witness for the amended C5: the enclosed goal of mEnclosed with a start
neither equal nor adjacent to it makes plan_path fail. -/
theorem plan_path_no_path_error_witness :
    plan_path mEnclosed 9 (pos 0 0) (pos 3 0) = .error .noPath :=
  plan_path_no_path_error.2.1 mEnclosed 9 (pos 0 0) (pos 3 0)
    (by unfold EnclosedGoal; decide) (by decide) (by decide)

/-! Straight-walk development: geometry helpers. -/

/-- Squared distance between cell centres. -/
theorem distsq_cellPos (a b : Cell) :
    distsq (cellPos a) (cellPos b) =
      ((a.1 - b.1 : Int) : ℚ) ^ 2 + ((a.2 - b.2 : Int) : ℚ) ^ 2 := by
  simp only [distsq, cellPos]
  push_cast
  ring

/-- Real value of the straight-walk frontier f-score: exactly the
straight-line cost. -/
theorem frontier_fval (dx k : Int) (hk : k ≤ dx) :
    fvalR ((k : ℚ), ((dx - k : Int) : ℚ) ^ 2) = (dx : ℝ) := by
  unfold fvalR
  have h1 : ((((dx - k : Int) : ℚ) ^ 2 : ℚ) : ℝ) = ((dx : ℝ) - (k : ℝ)) ^ 2 := by
    push_cast
    ring
  rw [h1, Real.sqrt_sq (sub_nonneg.2 (by exact_mod_cast hk))]
  push_cast
  ring

/-- Geometric core of the walk invariant: any cell off the forward row
segment has tentative cost plus goal distance strictly above the
straight-line cost. -/
theorem offseg_cost_gt (x1 x2 y : Int) (hx : x1 ≤ x2) (nx ny : Int)
    (hoff : ny ≠ y ∨ nx < x1) (t : ℚ)
    (ht : manhattanQ (x1, y) (nx, ny) ≤ t) :
    ((x2 - x1 : Int) : ℝ) <
      (t : ℝ) + Real.sqrt ((distsq (cellPos (nx, ny)) (cellPos (x2, y)) : ℚ) : ℝ) := by
  unfold manhattanQ at ht
  have htR : |(x1 : ℝ) - (nx : ℝ)| + |(y : ℝ) - (ny : ℝ)| ≤ (t : ℝ) := by
    exact_mod_cast ht
  have hdist : ((distsq (cellPos (nx, ny)) (cellPos (x2, y)) : ℚ) : ℝ) =
      ((nx : ℝ) - x2) ^ 2 + ((ny : ℝ) - y) ^ 2 := by
    rw [distsq_cellPos]
    push_cast
    ring
  rw [hdist]
  have hsqA : |(nx : ℝ) - x2| ≤ Real.sqrt (((nx : ℝ) - x2) ^ 2 + ((ny : ℝ) - y) ^ 2) := by
    rw [← Real.sqrt_sq_eq_abs]
    apply Real.sqrt_le_sqrt
    nlinarith [sq_nonneg ((ny : ℝ) - y)]
  have habsA : (nx : ℝ) - x2 ≤ |(nx : ℝ) - x2| := le_abs_self _
  have habsA2 : -((nx : ℝ) - x2) ≤ |(nx : ℝ) - x2| := neg_le_abs _
  have habsB : (x1 : ℝ) - nx ≤ |(x1 : ℝ) - nx| := le_abs_self _
  have habsB2 : -((x1 : ℝ) - nx) ≤ |(x1 : ℝ) - nx| := neg_le_abs _
  have hgoal : ((x2 - x1 : Int) : ℝ) = (x2 : ℝ) - x1 := by push_cast; ring
  rw [hgoal]
  rcases hoff with hny | hnx
  · have hone : (1 : ℝ) ≤ |(y : ℝ) - ny| := by
      have h1 : (1 : Int) ≤ |y - ny| := Int.one_le_abs (by omega)
      have h2 : ((|y - ny| : Int) : ℝ) = |(y : ℝ) - ny| := by push_cast; rfl
      calc (1 : ℝ) = ((1 : Int) : ℝ) := by norm_num
        _ ≤ ((|y - ny| : Int) : ℝ) := by exact_mod_cast h1
        _ = _ := h2
    linarith
  · have hone : (1 : ℝ) ≤ (x1 : ℝ) - nx := by
      have h1 : (1 : Int) ≤ x1 - nx := by omega
      exact_mod_cast h1
    have hxR : (x1 : ℝ) ≤ (x2 : ℝ) := by exact_mod_cast hx
    have habs0 : (0 : ℝ) ≤ |(y : ℝ) - ny| := abs_nonneg _
    linarith

/-- Cells off the forward row segment differ from every forward segment cell. -/
theorem offseg_ne_seg (x1 y : Int) (n : Cell) (hoff : n.2 ≠ y ∨ n.1 < x1)
    (j : Int) (hj : 0 ≤ j) : n ≠ (x1 + j, y) := by
  obtain ⟨nx, ny⟩ := n
  intro h
  simp only [Prod.mk.injEq] at h
  rcases hoff with h1 | h1
  · exact h1 h.2
  · simp only [] at h1
    omega

/-- Folding over a filtered list is folding a guarded step. -/
theorem foldl_filter_guard {α β : Type} (f : β → α → β) (p : α → Bool) :
    ∀ (l : List α) (b : β),
      (l.filter p).foldl f b = l.foldl (fun b a => if p a then f b a else b) b := by
  intro l
  induction l with
  | nil => intro b; rfl
  | cons a as ih =>
    intro b
    by_cases h : p a = true
    · simp [List.filter_cons, h, List.foldl_cons, ih]
    · simp [List.filter_cons, h, List.foldl_cons, ih]

/-- The neighbour list is the filtered adjacency list. -/
theorem get_neighbors_eq (m : Map) (cur : Cell) :
    get_neighbors m cur =
      (adjCells cur).filter (fun n => m.is_valid_position (cellPos n)) := by
  unfold get_neighbors adjCells
  congr 1
  simp [Prod.ext_iff]
  constructor <;> omega

/-- The neighbour relaxation loop as a fold of guarded relax steps over the
four adjacent cells. -/
theorem foldl_relax (m : Map) (goal : Position) (cur : Cell) (st : AStarState) :
    (get_neighbors m cur).foldl (processNeighbor goal cur) st =
      (adjCells cur).foldl (relaxStep m goal cur) st := by
  rw [get_neighbors_eq, foldl_filter_guard]
  rfl

/-- A relaxation that does not improve the g-score leaves the state unchanged. -/
theorem processNeighbor_no_update (goal : Position) (cur : Cell) (st : AStarState)
    (n : Cell) (gc gn : ℚ) (hgc : alookup st.g_score cur = some gc)
    (hgn : alookup st.g_score n = some gn) (hge : ¬ (gc + 1 < gn)) :
    processNeighbor goal cur st n = st := by
  simp [processNeighbor, hgc, hgn, hge]

/-- A relaxation that improves (or first sets) the g-score updates the four
state components. -/
theorem processNeighbor_update (goal : Position) (cur : Cell) (st : AStarState)
    (n : Cell) (gc : ℚ) (hgc : alookup st.g_score cur = some gc)
    (hbetter : ∀ gn, alookup st.g_score n = some gn → gc + 1 < gn) :
    processNeighbor goal cur st n =
      { open_set := if n ∈ st.open_set then st.open_set else st.open_set ++ [n],
        came_from := aupdate st.came_from n cur,
        g_score := aupdate st.g_score n (gc + 1),
        f_score := aupdate st.f_score n (gc + 1, distsq (cellPos n) goal) } := by
  cases hg : alookup st.g_score n with
  | none => simp [processNeighbor, hgc, hg]
  | some gn =>
    have := hbetter gn hg
    simp [processNeighbor, hgc, hg, this]

/-- Relaxing an off-segment cell from the straight-walk frontier preserves the
mid-iteration invariant (state after an actual g/f/parent update). -/
theorem midinv_after_update (m : Map) (x1 x2 y k : Int) (hx : x1 ≤ x2)
    (hk0 : 0 ≤ k) (st : AStarState) (hmid : MidInv m x1 x2 y k st)
    (n : Cell) (hoff : n.2 ≠ y ∨ n.1 < x1)
    (hman : manhattanQ (x1, y) n ≤ (k : ℚ) + 1) :
    MidInv m x1 x2 y k
      { open_set := if n ∈ st.open_set then st.open_set else st.open_set ++ [n],
        came_from := aupdate st.came_from n (x1 + k, y),
        g_score := aupdate st.g_score n ((k : ℚ) + 1),
        f_score := aupdate st.f_score n
          ((k : ℚ) + 1, distsq (cellPos n) (cellPos (x2, y))) } := by
  have hopen : ∀ c, c ∈ (if n ∈ st.open_set then st.open_set else st.open_set ++ [n]) →
      c ∈ st.open_set ∨ c = n := by
    intro c hc
    by_cases hmem : n ∈ st.open_set
    · rw [if_pos hmem] at hc; exact Or.inl hc
    · rw [if_neg hmem] at hc
      rcases List.mem_append.1 hc with h1 | h1
      · exact Or.inl h1
      · right; simpa using h1
  refine ⟨?_, ?_, ?_, ?_, ?_, ?_, ?_, ?_⟩
  · by_cases hmem : n ∈ st.open_set
    · rw [if_pos hmem]; exact hmid.nodup
    · rw [if_neg hmem]
      refine List.Nodup.append hmid.nodup (List.nodup_singleton n) ?_
      intro a ha hb
      rw [List.mem_singleton] at hb
      subst hb
      exact hmem ha
  · intro c hc
    rcases hopen c hc with h1 | h1
    · exact hmid.open_off c h1
    · rw [h1]; exact hoff
  · intro c hc
    by_cases hcn : c = n
    · subst hcn
      unfold FAbove
      rw [alookup_aupdate_self]
      refine ⟨distsq_nonneg _ _, ?_⟩
      have h2 := offseg_cost_gt x1 x2 y hx c.1 c.2 hoff ((k : ℚ) + 1) hman
      unfold fvalR
      push_cast at h2 ⊢
      convert h2 using 3
    · unfold FAbove
      rw [alookup_aupdate_ne _ _ _ _ hcn]
      rcases hopen c hc with h1 | h1
      · exact hmid.open_above c h1
      · exact absurd h1 hcn
  · intro c v hv
    by_cases hcn : c = n
    · subst hcn
      rw [alookup_aupdate_self] at hv
      cases hv
      exact hman
    · rw [alookup_aupdate_ne _ _ _ _ hcn] at hv
      exact hmid.g_manhattan c v hv
  · intro j hj0 hjk
    rw [alookup_aupdate_ne _ _ _ _ (offseg_ne_seg x1 y n hoff j hj0).symm.symm.symm]
    exact hmid.g_seg j hj0 hjk
  · intro j hjk hjdx
    rw [alookup_aupdate_ne _ _ _ _
      ((offseg_ne_seg x1 y n hoff j (by omega)).symm.symm.symm)]
    exact hmid.g_ahead j hjk hjdx
  · intro j hj1 hjk
    rw [alookup_aupdate_ne _ _ _ _
      ((offseg_ne_seg x1 y n hoff j (by omega)).symm.symm.symm)]
    exact hmid.cf_seg j hj1 hjk
  · have hne : n ≠ ((x1 : Int), y) := by
      have := offseg_ne_seg x1 y n hoff 0 le_rfl
      rwa [add_zero] at this
    rw [alookup_aupdate_ne _ _ _ _ hne.symm]
    exact hmid.cf_start

/-- Guarded relaxation of an off-segment candidate preserves the
mid-iteration invariant. -/
theorem midinv_relax_off (m : Map) (x1 x2 y k : Int) (hx : x1 ≤ x2)
    (hk0 : 0 ≤ k) (st : AStarState) (hmid : MidInv m x1 x2 y k st)
    (n : Cell) (hoff : n.2 ≠ y ∨ n.1 < x1)
    (hman : manhattanQ (x1, y) n ≤ (k : ℚ) + 1) :
    MidInv m x1 x2 y k (relaxStep m (cellPos (x2, y)) (x1 + k, y) st n) := by
  unfold relaxStep
  by_cases hval : m.is_valid_position (cellPos n) = true
  · rw [if_pos hval]
    have hgcur : alookup st.g_score (x1 + k, y) = some (k : ℚ) :=
      hmid.g_seg k hk0 le_rfl
    cases hgn : alookup st.g_score n with
    | none =>
      rw [processNeighbor_update _ _ _ _ (k : ℚ) hgcur
        (fun gn hgn2 => by rw [hgn2] at hgn; cases hgn)]
      exact midinv_after_update m x1 x2 y k hx hk0 st hmid n hoff hman
    | some gn =>
      by_cases hlt : (k : ℚ) + 1 < gn
      · rw [processNeighbor_update _ _ _ _ (k : ℚ) hgcur
          (fun gn2 hgn2 => by rw [hgn2] at hgn; cases hgn; exact hlt)]
        exact midinv_after_update m x1 x2 y k hx hk0 st hmid n hoff hman
      · rw [processNeighbor_no_update _ _ _ _ (k : ℚ) gn hgcur hgn hlt]
        exact hmid
  · rw [if_neg hval]
    exact hmid

/-- Relaxing the next row cell from the straight-walk frontier installs it as
the new frontier: the mid-iteration invariant at index k advances to the
between-iteration invariant at index k + 1. -/
theorem walk_rightstep (m : Map) (x1 x2 y k : Int) (hx : x1 ≤ x2)
    (hk0 : 0 ≤ k) (hkdx : k < x2 - x1) (st : AStarState)
    (hmid : MidInv m x1 x2 y k st)
    (hval : m.is_valid_position (cellPos (x1 + (k + 1), y)) = true) :
    WalkInv m x1 x2 y (k + 1)
      (relaxStep m (cellPos (x2, y)) (x1 + k, y) st (x1 + (k + 1), y)) := by
  set n : Cell := (x1 + (k + 1), y) with hn
  have hgcur : alookup st.g_score (x1 + k, y) = some (k : ℚ) :=
    hmid.g_seg k hk0 le_rfl
  have hgn : alookup st.g_score n = none := hmid.g_ahead (k + 1) (by omega) (by omega)
  have hnotopen : n ∉ st.open_set := by
    intro hmem
    rcases hmid.open_off n hmem with h1 | h1
    · exact h1 rfl
    · simp only [hn] at h1
      omega
  unfold relaxStep
  rw [if_pos hval,
    processNeighbor_update _ _ _ _ (k : ℚ) hgcur
      (fun gn hgn2 => by rw [hgn2] at hgn; cases hgn),
    if_neg hnotopen]
  refine ⟨?_, ?_, ?_, ?_, ?_, ?_, ?_, ?_, ?_, ?_⟩
  · refine List.Nodup.append hmid.nodup (List.nodup_singleton n) ?_
    intro a ha hb
    rw [List.mem_singleton] at hb
    subst hb
    exact hnotopen ha
  · rw [List.mem_append]
    right
    simp [hn]
  · have hkey : ((x1 + (k + 1) : Int), y) = n := rfl
    rw [hkey, alookup_aupdate_self]
    congr 1
    refine Prod.ext ?_ ?_
    · push_cast
      ring
    · rw [distsq_cellPos]
      simp only [hn]
      push_cast
      ring
  · intro c hc hcne
    rcases List.mem_append.1 hc with h1 | h1
    · exact hmid.open_off c h1
    · rw [List.mem_singleton] at h1
      exact absurd h1 hcne
  · intro c hc hcne
    rcases List.mem_append.1 hc with h1 | h1
    · unfold FAbove
      rw [alookup_aupdate_ne _ _ _ _ (fun h : c = n => hnotopen (h ▸ h1))]
      exact hmid.open_above c h1
    · rw [List.mem_singleton] at h1
      exact absurd h1 hcne
  · intro c v hv
    by_cases hcn : c = n
    · subst hcn
      rw [alookup_aupdate_self] at hv
      cases hv
      have h1 : manhattanQ (x1, y) n = (k : ℚ) + 1 := by
        simp only [hn]
        unfold manhattanQ
        have h2 : ((x1 - (x1 + (k + 1)) : Int) : ℚ) = -((k : ℚ) + 1) := by
          push_cast
          ring
        have h3 : ((y - y : Int) : ℚ) = 0 := by
          push_cast
          ring
        rw [h2, h3, abs_neg, abs_zero, add_zero,
          abs_of_nonneg (by positivity : (0 : ℚ) ≤ (k : ℚ) + 1)]
      rw [h1]
    · rw [alookup_aupdate_ne _ _ _ _ hcn] at hv
      exact hmid.g_manhattan c v hv
  · intro j hj0 hjk
    by_cases hj : j = k + 1
    · subst hj
      have hkey : ((x1 + (k + 1) : Int), y) = n := rfl
      rw [hkey, alookup_aupdate_self]
      congr 1
      push_cast
      ring
    · have hne : ((x1 + j : Int), y) ≠ n := by
        simp only [hn, ne_eq, Prod.mk.injEq]
        intro h
        omega
      rw [alookup_aupdate_ne _ _ _ _ hne]
      exact hmid.g_seg j hj0 (by omega)
  · intro j hjk hjdx
    have hne : ((x1 + j : Int), y) ≠ n := by
      simp only [hn, ne_eq, Prod.mk.injEq]
      intro h
      omega
    rw [alookup_aupdate_ne _ _ _ _ hne]
    exact hmid.g_ahead j (by omega) hjdx
  · intro j hj1 hjk
    by_cases hj : j = k + 1
    · subst hj
      have hkey : ((x1 + (k + 1) : Int), y) = n := rfl
      rw [hkey, alookup_aupdate_self]
      congr 1
      refine Prod.ext ?_ ?_
      · simp only []
        omega
      · rfl
    · have hne : ((x1 + j : Int), y) ≠ n := by
        simp only [hn, ne_eq, Prod.mk.injEq]
        intro h
        omega
      rw [alookup_aupdate_ne _ _ _ _ hne]
      exact hmid.cf_seg j hj1 (by omega)
  · have hne : ((x1 : Int), y) ≠ n := by
      simp only [hn, ne_eq, Prod.mk.injEq]
      intro h
      omega
    rw [alookup_aupdate_ne _ _ _ _ hne]
    exact hmid.cf_start

/-- Under the between-iteration walk invariant, Python min picks the straight
frontier cell from the open set. -/
theorem walk_frontmin (m : Map) (x1 x2 y k : Int) (hkdx : k ≤ x2 - x1)
    (st : AStarState) (hw : WalkInv m x1 x2 y k st)
    (c0 : Cell) (rest : List Cell) (hop : st.open_set = c0 :: rest) :
    argminAux (alookup st.f_score) c0 rest = (x1 + k, y) := by
  refine argminAux_unique (alookup st.f_score) (x1 + k, y)
    ((k : ℚ), ((x2 - x1 - k : Int) : ℚ) ^ 2) hw.frontier_f
    (sq_nonneg _) ((x2 - x1 : Int) : ℝ) ?_ rest c0 ?_ ?_
  · rw [frontier_fval (x2 - x1) k hkdx]
  · rw [← hop]
    exact hw.frontier_mem
  · intro c hc hcne
    rw [← hop] at hc
    exact hw.open_above c hc hcne

/-- Erasing the straight frontier cell from the open set turns the
between-iteration walk invariant into the mid-iteration invariant. -/
theorem walk_pop (m : Map) (x1 x2 y k : Int) (st : AStarState)
    (hw : WalkInv m x1 x2 y k st) :
    MidInv m x1 x2 y k { st with open_set := st.open_set.erase (x1 + k, y) } := by
  refine ⟨?_, ?_, ?_, hw.g_manhattan, hw.g_seg, hw.g_ahead, hw.cf_seg, hw.cf_start⟩
  · exact hw.nodup.erase _
  · intro c hc
    rw [hw.nodup.mem_erase_iff] at hc
    exact hw.open_off c hc.2 hc.1
  · intro c hc
    rw [hw.nodup.mem_erase_iff] at hc
    exact hw.open_above c hc.2 hc.1

/-- An off-segment g/f/parent update preserves the between-iteration walk
invariant: the straight frontier entry is untouched and the new entry's
f-score lies strictly above the straight-line cost. -/
theorem walkinv_after_update (m : Map) (x1 x2 y K : Int) (hx : x1 ≤ x2)
    (hK : 0 ≤ K) (st : AStarState) (hw : WalkInv m x1 x2 y K st)
    (n : Cell) (hoff : n.2 ≠ y ∨ n.1 < x1) (p : Cell) (v : ℚ)
    (hman : manhattanQ (x1, y) n ≤ v) :
    WalkInv m x1 x2 y K
      { open_set := if n ∈ st.open_set then st.open_set else st.open_set ++ [n],
        came_from := aupdate st.came_from n p,
        g_score := aupdate st.g_score n v,
        f_score := aupdate st.f_score n
          (v, distsq (cellPos n) (cellPos (x2, y))) } := by
  have hopen : ∀ c, c ∈ (if n ∈ st.open_set then st.open_set else st.open_set ++ [n]) →
      c ∈ st.open_set ∨ c = n := by
    intro c hc
    by_cases hmem : n ∈ st.open_set
    · rw [if_pos hmem] at hc; exact Or.inl hc
    · rw [if_neg hmem] at hc
      rcases List.mem_append.1 hc with h1 | h1
      · exact Or.inl h1
      · right; simpa using h1
  have hfr : ((x1 + K : Int), y) ≠ n := (offseg_ne_seg x1 y n hoff K hK).symm
  refine ⟨?_, ?_, ?_, ?_, ?_, ?_, ?_, ?_, ?_, ?_⟩
  · by_cases hmem : n ∈ st.open_set
    · rw [if_pos hmem]; exact hw.nodup
    · rw [if_neg hmem]
      refine List.Nodup.append hw.nodup (List.nodup_singleton n) ?_
      intro a ha hb
      rw [List.mem_singleton] at hb
      subst hb
      exact hmem ha
  · by_cases hmem : n ∈ st.open_set
    · rw [if_pos hmem]; exact hw.frontier_mem
    · rw [if_neg hmem]; exact List.mem_append.2 (Or.inl hw.frontier_mem)
  · rw [alookup_aupdate_ne _ _ _ _ hfr]
    exact hw.frontier_f
  · intro c hc hcne
    rcases hopen c hc with h1 | h1
    · exact hw.open_off c h1 hcne
    · rw [h1]; exact hoff
  · intro c hc hcne
    by_cases hcn : c = n
    · subst hcn
      unfold FAbove
      rw [alookup_aupdate_self]
      refine ⟨distsq_nonneg _ _, ?_⟩
      have h2 := offseg_cost_gt x1 x2 y hx c.1 c.2 hoff v hman
      unfold fvalR
      push_cast at h2 ⊢
      convert h2 using 3
    · unfold FAbove
      rw [alookup_aupdate_ne _ _ _ _ hcn]
      rcases hopen c hc with h1 | h1
      · exact hw.open_above c h1 hcne
      · exact absurd h1 hcn
  · intro c v2 hv
    by_cases hcn : c = n
    · subst hcn
      rw [alookup_aupdate_self] at hv
      cases hv
      exact hman
    · rw [alookup_aupdate_ne _ _ _ _ hcn] at hv
      exact hw.g_manhattan c v2 hv
  · intro j hj0 hjk
    rw [alookup_aupdate_ne _ _ _ _ (offseg_ne_seg x1 y n hoff j hj0).symm]
    exact hw.g_seg j hj0 hjk
  · intro j hjk hjdx
    rw [alookup_aupdate_ne _ _ _ _ (offseg_ne_seg x1 y n hoff j (by omega)).symm]
    exact hw.g_ahead j hjk hjdx
  · intro j hj1 hjk
    rw [alookup_aupdate_ne _ _ _ _ (offseg_ne_seg x1 y n hoff j (by omega)).symm]
    exact hw.cf_seg j hj1 hjk
  · have hne : ((x1 : Int), y) ≠ n := by
      have := offseg_ne_seg x1 y n hoff 0 le_rfl
      rw [add_zero] at this
      exact this.symm
    rw [alookup_aupdate_ne _ _ _ _ hne]
    exact hw.cf_start

/-- Guarded relaxation of an off-segment candidate from the previous frontier
preserves the between-iteration walk invariant at the advanced index. -/
theorem walkinv_relax_off (m : Map) (x1 x2 y k : Int) (hx : x1 ≤ x2)
    (hk0 : 0 ≤ k) (st : AStarState) (hw : WalkInv m x1 x2 y (k + 1) st)
    (n : Cell) (hoff : n.2 ≠ y ∨ n.1 < x1)
    (hman : manhattanQ (x1, y) n ≤ (k : ℚ) + 1) :
    WalkInv m x1 x2 y (k + 1)
      (relaxStep m (cellPos (x2, y)) (x1 + k, y) st n) := by
  unfold relaxStep
  by_cases hval : m.is_valid_position (cellPos n) = true
  · rw [if_pos hval]
    have hgcur : alookup st.g_score (x1 + k, y) = some (k : ℚ) :=
      hw.g_seg k hk0 (by omega)
    cases hgn : alookup st.g_score n with
    | none =>
      rw [processNeighbor_update _ _ _ _ (k : ℚ) hgcur
        (fun gn hgn2 => by rw [hgn2] at hgn; cases hgn)]
      exact walkinv_after_update m x1 x2 y (k + 1) hx (by omega) st hw n hoff
        (x1 + k, y) ((k : ℚ) + 1) hman
    | some gn =>
      by_cases hlt : (k : ℚ) + 1 < gn
      · rw [processNeighbor_update _ _ _ _ (k : ℚ) hgcur
          (fun gn2 hgn2 => by rw [hgn2] at hgn; cases hgn; exact hlt)]
        exact walkinv_after_update m x1 x2 y (k + 1) hx (by omega) st hw n hoff
          (x1 + k, y) ((k : ℚ) + 1) hman
      · rw [processNeighbor_no_update _ _ _ _ (k : ℚ) gn hgcur hgn hlt]
        exact hw
  · rw [if_neg hval]
    exact hw

/-- Relaxing the left neighbour of the straight frontier preserves the
mid-iteration invariant: at the start cell it is off-segment, later it already
carries a better g-score and the relaxation is a no-op. -/
theorem midinv_relax_left (m : Map) (x1 x2 y k : Int) (hx : x1 ≤ x2)
    (hk0 : 0 ≤ k) (st : AStarState) (hmid : MidInv m x1 x2 y k st) :
    MidInv m x1 x2 y k
      (relaxStep m (cellPos (x2, y)) (x1 + k, y) st (x1 + k - 1, y)) := by
  by_cases hk : k = 0
  · subst hk
    refine midinv_relax_off m x1 x2 y 0 hx le_rfl st hmid (x1 + 0 - 1, y)
      (Or.inr (by simp only []; omega)) ?_
    unfold manhattanQ
    have h1 : ((x1 - (x1 + 0 - 1) : Int) : ℚ) = 1 := by push_cast; ring
    have h2 : ((y - y : Int) : ℚ) = 0 := by push_cast; ring
    rw [h1, h2, abs_one, abs_zero]
    norm_num
  · unfold relaxStep
    by_cases hval : m.is_valid_position (cellPos (x1 + k - 1, y)) = true
    · rw [if_pos hval]
      have hgcur : alookup st.g_score (x1 + k, y) = some (k : ℚ) :=
        hmid.g_seg k hk0 le_rfl
      have hkey : ((x1 + k - 1 : Int), y) = ((x1 + (k - 1) : Int), y) := by
        refine Prod.ext ?_ rfl
        simp only []
        ring
      have hgn : alookup st.g_score (x1 + k - 1, y) = some (((k - 1 : Int)) : ℚ) := by
        rw [hkey]
        exact hmid.g_seg (k - 1) (by omega) (by omega)
      rw [processNeighbor_no_update _ _ _ _ (k : ℚ) ((k - 1 : Int) : ℚ) hgcur hgn
        (by push_cast; linarith)]
      exact hmid
    · rw [if_neg hval]
      exact hmid

/-- One full A* iteration under the walk invariant: the straight frontier is
popped, its four neighbours relaxed, and the invariant advances one cell. -/
theorem walk_step (m : Map) (x1 x2 y k : Int) (hx : x1 ≤ x2) (hk0 : 0 ≤ k)
    (hkdx : k < x2 - x1)
    (hrow : ∀ j : Int, 1 ≤ j → j ≤ x2 - x1 →
      m.is_valid_position (cellPos (x1 + j, y)) = true)
    (st : AStarState) (hw : WalkInv m x1 x2 y k st) (fuel : ℕ) :
    ∃ st2, aStarLoop m (cellPos (x2, y)) (x2, y) (fuel + 1) st =
        aStarLoop m (cellPos (x2, y)) (x2, y) fuel st2 ∧
      WalkInv m x1 x2 y (k + 1) st2 := by
  obtain ⟨c0, rest, hop⟩ :=
    List.exists_cons_of_ne_nil (List.ne_nil_of_mem hw.frontier_mem)
  have hmin := walk_frontmin m x1 x2 y k (le_of_lt hkdx) st hw c0 rest hop
  have hne : ((x1 + k : Int), y) ≠ ((x2 : Int), y) := by
    simp only [ne_eq, Prod.mk.injEq]
    intro h
    omega
  refine ⟨(get_neighbors m (x1 + k, y)).foldl
      (processNeighbor (cellPos (x2, y)) (x1 + k, y))
      { st with open_set := st.open_set.erase (x1 + k, y) }, ?_, ?_⟩
  · simp only [aStarLoop, hop, hmin]
    rw [if_neg hne, ← hop]
  · have hmid0 : MidInv m x1 x2 y k
        { st with open_set := st.open_set.erase (x1 + k, y) } :=
      walk_pop m x1 x2 y k st hw
    rw [foldl_relax]
    simp only [adjCells, List.foldl_cons, List.foldl_nil]
    have hcell : ((x1 + k + 1 : Int), y) = ((x1 + (k + 1) : Int), y) := by
      rw [add_assoc]
    rw [hcell]
    have h1 := midinv_relax_left m x1 x2 y k hx hk0 _ hmid0
    have h2 := walk_rightstep m x1 x2 y k hx hk0 hkdx _ h1
      (hrow (k + 1) (by omega) (by omega))
    have hman1 : manhattanQ (x1, y) (x1 + k, y - 1) ≤ (k : ℚ) + 1 := by
      unfold manhattanQ
      have e1 : ((x1 - (x1 + k) : Int) : ℚ) = -(k : ℚ) := by push_cast; ring
      have e2 : ((y - (y - 1) : Int) : ℚ) = 1 := by push_cast; ring
      rw [e1, e2, abs_neg, abs_one,
        abs_of_nonneg (by exact_mod_cast hk0 : (0 : ℚ) ≤ (k : ℚ))]
    have hman2 : manhattanQ (x1, y) (x1 + k, y + 1) ≤ (k : ℚ) + 1 := by
      unfold manhattanQ
      have e1 : ((x1 - (x1 + k) : Int) : ℚ) = -(k : ℚ) := by push_cast; ring
      have e2 : ((y - (y + 1) : Int) : ℚ) = -1 := by push_cast; ring
      rw [e1, e2, abs_neg, abs_neg, abs_one,
        abs_of_nonneg (by exact_mod_cast hk0 : (0 : ℚ) ≤ (k : ℚ))]
    have h3 := walkinv_relax_off m x1 x2 y k hx hk0 _ h2 (x1 + k, y - 1)
      (Or.inl (by simp only []; omega)) hman1
    exact walkinv_relax_off m x1 x2 y k hx hk0 _ h3 (x1 + k, y + 1)
      (Or.inl (by simp only []; omega)) hman2

/-- Walking the straight parent chain reconstructs the row segment in order. -/
theorem reconstruct_seg (cf : List (Cell × Cell)) (x1 y J : Int)
    (hseg : ∀ j : Int, 1 ≤ j → j ≤ J →
      alookup cf (x1 + j, y) = some (x1 + j - 1, y))
    (hstart : alookup cf (x1, y) = none) :
    ∀ j : ℕ, (j : Int) ≤ J → ∀ fuel : ℕ, j + 1 ≤ fuel →
      reconstructPath fuel cf (x1 + (j : Int), y) =
        some ((List.range (j + 1)).map (fun i : ℕ => (x1 + (i : Int), y))) := by
  intro j
  induction j with
  | zero =>
    intro _ fuel hfuel
    obtain ⟨f, rfl⟩ := Nat.exists_eq_add_of_le hfuel
    have hkey : ((x1 + ((0 : ℕ) : Int) : Int), y) = ((x1 : Int), y) := by
      refine Prod.ext ?_ rfl
      simp
    rw [hkey]
    rw [show 0 + 1 + f = f + 1 from by omega]
    rw [reconstructPath_none f cf (x1, y) hstart]
    simp [List.range_succ]
  | succ j ih =>
    intro hJ fuel hfuel
    obtain ⟨f, rfl⟩ := Nat.exists_eq_add_of_le hfuel
    rw [show j + 1 + 1 + f = (j + 1 + f) + 1 from by omega]
    have hlook : alookup cf (x1 + ((j + 1 : ℕ) : Int), y) =
        some (x1 + ((j + 1 : ℕ) : Int) - 1, y) :=
      hseg ((j + 1 : ℕ) : Int) (by push_cast; omega) hJ
    have hpar : ((x1 + ((j + 1 : ℕ) : Int) - 1 : Int), y) =
        ((x1 + (j : Int) : Int), y) := by
      refine Prod.ext ?_ rfl
      push_cast
      ring
    rw [reconstructPath, hlook, hpar]
    dsimp only
    rw [ih (by push_cast at hJ ⊢; omega) (j + 1 + f) (by omega)]
    rw [Option.map_some']
    congr 1
    conv_rhs => rw [List.range_succ, List.map_append]
    rfl

/-- A parent map carrying the straight chain has at least as many entries as
the chain has links. -/
theorem seg_length_le (cf : List (Cell × Cell)) (x1 y J : Int) (hJ : 0 ≤ J)
    (hseg : ∀ j : Int, 1 ≤ j → j ≤ J →
      alookup cf (x1 + j, y) = some (x1 + j - 1, y)) :
    J ≤ (cf.length : Int) := by
  set L : List Cell :=
    (List.range J.toNat).map (fun i : ℕ => ((x1 + (i : Int) + 1 : Int), y)) with hL
  have hnd : L.Nodup := by
    refine List.Nodup.map ?_ (List.nodup_range J.toNat)
    intro a b hab
    simp only [Prod.mk.injEq] at hab
    omega
  have hsub : L ⊆ cf.map Prod.fst := by
    intro c hc
    rw [hL, List.mem_map] at hc
    obtain ⟨i, hi, rfl⟩ := hc
    rw [List.mem_range] at hi
    have hkey : ((x1 + (i : Int) + 1 : Int), y) = ((x1 + ((i : Int) + 1) : Int), y) := by
      refine Prod.ext ?_ rfl
      simp only []
      ring
    rw [hkey]
    by_contra hmem
    have := (alookup_eq_none_iff cf _).2 hmem
    rw [hseg ((i : Int) + 1) (by omega) (by omega)] at this
    cases this
  have hlen : L.length ≤ (cf.map Prod.fst).length :=
    (List.subperm_of_subset hnd hsub).length_le
  rw [hL] at hlen
  simp only [List.length_map, List.length_range] at hlen
  omega

/-- Running the A* loop from any walk-invariant state with the whole forward
row valid yields exactly the straight row of cells. -/
theorem walk_run (m : Map) (x1 x2 y : Int) (hx : x1 ≤ x2)
    (hrow : ∀ j : Int, 1 ≤ j → j ≤ x2 - x1 →
      m.is_valid_position (cellPos (x1 + j, y)) = true) :
    ∀ (r : ℕ) (k : Int), 0 ≤ k → k + (r : Int) = x2 - x1 →
      ∀ st : AStarState, WalkInv m x1 x2 y k st → ∀ fuel : ℕ, r + 1 ≤ fuel →
        aStarLoop m (cellPos (x2, y)) (x2, y) fuel st = some (rowCells x1 x2 y) := by
  intro r
  induction r with
  | zero =>
    intro k hk0 hkr st hw fuel hfuel
    obtain ⟨f, rfl⟩ := Nat.exists_eq_add_of_le hfuel
    rw [show 0 + 1 + f = f + 1 from by omega]
    have hk : k = x2 - x1 := by push_cast at hkr; omega
    obtain ⟨c0, rest, hop⟩ :=
      List.exists_cons_of_ne_nil (List.ne_nil_of_mem hw.frontier_mem)
    have hmin := walk_frontmin m x1 x2 y k (by omega) st hw c0 rest hop
    have hgc : ((x1 + k : Int), y) = ((x2 : Int), y) := by
      refine Prod.ext ?_ rfl
      simp only []
      omega
    rw [aStarLoop_goal_hit m (cellPos (x2, y)) (x2, y) f st c0 rest hop
      (hmin.trans hgc)]
    have hseg : ∀ j : Int, 1 ≤ j → j ≤ x2 - x1 →
        alookup st.came_from (x1 + j, y) = some (x1 + j - 1, y) := by
      intro j hj1 hj2
      exact hw.cf_seg j hj1 (by omega)
    have hlen := seg_length_le st.came_from x1 y (x2 - x1) (by omega) hseg
    have hrec := reconstruct_seg st.came_from x1 y (x2 - x1) hseg hw.cf_start
      (x2 - x1).toNat (by rw [Int.toNat_of_nonneg (by omega)])
      (st.came_from.length + 1) (by omega)
    have hkey : ((x1 + (((x2 - x1).toNat : ℕ) : Int) : Int), y) = ((x2 : Int), y) := by
      refine Prod.ext ?_ rfl
      simp only []
      rw [Int.toNat_of_nonneg (by omega)]
      ring
    rw [hkey] at hrec
    rw [hrec]
    rfl
  | succ r ih =>
    intro k hk0 hkr st hw fuel hfuel
    obtain ⟨f, rfl⟩ := Nat.exists_eq_add_of_le hfuel
    rw [show r + 1 + 1 + f = (r + 1 + f) + 1 from by omega]
    have hkdx : k < x2 - x1 := by push_cast at hkr; omega
    obtain ⟨st2, heq, hw2⟩ := walk_step m x1 x2 y k hx hk0 hkdx hrow st hw (r + 1 + f)
    rw [heq]
    exact ih (k + 1) (by omega) (by push_cast at hkr ⊢; omega) st2 hw2
      (r + 1 + f) (by omega)

/-- The cell of the pose at a cell centre is the cell itself. -/
theorem cellOf_cellPos (c : Cell) : cellOf (cellPos c) = c := by
  obtain ⟨cx, cy⟩ := c
  simp [cellOf, cellPos, pytrunc_intCast]

/-- The initial A* state for the straight-walk scenario satisfies the walk
invariant at index zero. -/
theorem walkinv_init (m : Map) (x1 x2 y : Int) (hx : x1 ≤ x2) :
    WalkInv m x1 x2 y 0
      { open_set := [((x1 : Int), y)],
        came_from := [],
        g_score := [(((x1 : Int), y), 0)],
        f_score := [(((x1 : Int), y),
          (0, distsq (cellPos (x1, y)) (cellPos (x2, y))))] } := by
  have hfr : ((x1 + 0 : Int), y) = ((x1 : Int), y) := by
    refine Prod.ext ?_ rfl
    simp only []
    ring
  refine ⟨List.nodup_singleton _, ?_, ?_, ?_, ?_, ?_, ?_, ?_, ?_, ?_⟩
  · rw [hfr]; exact List.mem_singleton_self _
  · rw [hfr]
    have h1 : alookup [(((x1 : Int), y),
        ((0 : ℚ), distsq (cellPos (x1, y)) (cellPos (x2, y))))] ((x1 : Int), y) =
        some ((0 : ℚ), distsq (cellPos (x1, y)) (cellPos (x2, y))) := by
      simp [alookup]
    rw [h1]
    congr 1
    refine Prod.ext ?_ ?_
    · norm_num
    · rw [distsq_cellPos]
      simp only []
      push_cast
      ring
  · intro c hc hcne
    rw [List.mem_singleton] at hc
    exact absurd (hc.trans hfr.symm) hcne
  · intro c hc hcne
    rw [List.mem_singleton] at hc
    exact absurd (hc.trans hfr.symm) hcne
  · intro c v hv
    by_cases hcx : c = ((x1 : Int), y)
    · subst hcx
      simp only [alookup, if_pos rfl] at hv
      cases hv
      unfold manhattanQ
      simp
    · simp only [alookup, if_neg hcx] at hv
      cases hv
  · intro j hj0 hjk
    have hj : j = 0 := by omega
    subst hj
    rw [show ((x1 + 0 : Int), y) = ((x1 : Int), y) from hfr]
    simp only [alookup, if_pos rfl]
    norm_num
  · intro j hjk hjdx
    have hne : ((x1 + j : Int), y) ≠ ((x1 : Int), y) := by
      simp only [ne_eq, Prod.mk.injEq]
      intro h
      omega
    simp only [alookup, if_neg hne]
  · intro j hj1 hjk
    omega
  · rfl

/-- A* from the left end of an all-valid straight row to its right end finds
exactly the row of cell-centre poses (the start cell itself is never
validity-checked). -/
theorem a_star_straight (m : Map) (x1 x2 y : Int) (hx : x1 ≤ x2)
    (hrow : ∀ j : Int, 1 ≤ j → j ≤ x2 - x1 →
      m.is_valid_position (cellPos (x1 + j, y)) = true)
    (fuel : ℕ) (hfuel : (x2 - x1).toNat + 1 ≤ fuel) :
    a_star m fuel (cellPos (x1, y)) (cellPos (x2, y)) =
      some ((rowCells x1 x2 y).map cellPos) := by
  simp only [a_star, cellOf_cellPos]
  rw [walk_run m x1 x2 y hx hrow (x2 - x1).toNat 0 le_rfl
    (by rw [Int.toNat_of_nonneg (by omega)]; ring)
    _ (walkinv_init m x1 x2 y hx) fuel hfuel]
  rfl

/-- atan2 of a zero ordinate and positive abscissa is zero: the bearing along
the positive x direction. -/
theorem atan2_zero_pos (x : ℝ) (hx : 0 < x) : atan2 0 x = 0 := by
  show Complex.arg { re := x, im := 0 } = 0
  have h1 : ({ re := x, im := 0 } : ℂ) = (x : ℂ) := rfl
  rw [h1]
  exact Complex.arg_ofReal_of_nonneg (le_of_lt hx)

/-- Along a monotone straight row the bearing filter drops every interior
waypoint: each desired bearing equals the running bearing zero. -/
theorem smoothAux_straight :
    ∀ (l : List Position) (prev : Position),
      (∀ q ∈ l, q.y = prev.y ∧ prev.x < q.x) → smoothAux l prev 0 = [] := by
  intro l
  induction l with
  | nil => intro prev _; rfl
  | cons cur rest ih =>
    intro prev h
    obtain ⟨hy, hx⟩ := h cur (List.mem_cons_self _ _)
    have hdes : atan2 ((cur.y : ℝ) - (prev.y : ℝ)) ((cur.x : ℝ) - (prev.x : ℝ)) = 0 := by
      rw [hy, sub_self]
      exact atan2_zero_pos _ (sub_pos.2 (by exact_mod_cast hx))
    simp only [smoothAux, hdes, sub_zero, abs_zero]
    rw [if_neg (by norm_num)]
    exact ih prev (fun q hq => h q (List.mem_cons_of_mem _ hq))

/-- Smoothing a zero-heading start followed by a monotone straight row keeps
exactly the two endpoints. -/
theorem smooth_path_mono (p0 : Position) (mid : List Position) (lastP : Position)
    (h0 : p0.theta = 0)
    (hstraight : ∀ q ∈ mid ++ [lastP], q.y = p0.y ∧ p0.x < q.x) :
    smooth_path (p0 :: (mid ++ [lastP])) = [p0, lastP] := by
  have hne : lastP ≠ p0 := by
    intro h
    have h2 := (hstraight lastP (by simp)).2
    rw [h] at h2
    exact lt_irrefl _ h2
  simp only [smooth_path]
  have hth : ((p0.theta : ℚ) : ℝ) = 0 := by rw [h0]; norm_num
  rw [hth, smoothAux_straight _ _ hstraight,
    List.getLastD_cons, List.getLastD_concat, List.getLastD_cons]
  rw [if_pos ?_]
  · rfl
  · show lastP ≠ List.getLastD [] p0
    exact hne

/-- plan_path from the left end of an all-valid straight row returns exactly
the two endpoint poses: A* finds the full row of cells and smoothing
collapses every interior waypoint. -/
theorem plan_path_straight (m : Map) (x1 x2 y : Int) (hx : x1 < x2)
    (hrow : ∀ j : Int, 1 ≤ j → j ≤ x2 - x1 →
      m.is_valid_position (cellPos (x1 + j, y)) = true)
    (fuel : ℕ) (hfuel : (x2 - x1).toNat + 1 ≤ fuel) :
    plan_path m fuel (cellPos (x1, y)) (cellPos (x2, y)) =
      .ok [cellPos (x1, y), cellPos (x2, y)] := by
  obtain ⟨n, hn⟩ : ∃ n, (x2 - x1).toNat = n + 1 := ⟨(x2 - x1).toNat - 1, by omega⟩
  have hx2 : (x2 : Int) = x1 + ((n + 1 : ℕ) : Int) := by push_cast; omega
  have hdecomp : (rowCells x1 x2 y).map cellPos =
      cellPos ((x1 : Int), y) ::
        ((List.range n).map
            (fun i : ℕ => cellPos ((x1 + ((i + 1 : ℕ) : Int) : Int), y)) ++
          [cellPos ((x2 : Int), y)]) := by
    rw [rowCells, hn, Nat.succ_eq_add_one, List.range_succ_eq_map, List.map_cons,
      List.map_cons, List.map_map, List.map_map]
    congr 1
    · norm_num
    · rw [List.range_succ, List.map_append]
      congr 1
      simp only [List.map_cons, List.map_nil, Function.comp_apply]
      congr 2
      refine Prod.ext ?_ rfl
      simp only []
      rw [hx2]
  simp only [plan_path]
  rw [a_star_straight m x1 x2 y (le_of_lt hx) hrow fuel hfuel]
  dsimp only
  rw [if_neg (by rw [hdecomp]; exact List.cons_ne_nil _ _), hdecomp,
    smooth_path_mono (cellPos ((x1 : Int), y)) _ (cellPos ((x2 : Int), y)) rfl ?_]
  intro q hq
  rcases List.mem_append.1 hq with h1 | h1
  · rw [List.mem_map] at h1
    obtain ⟨i, hi, rfl⟩ := h1
    refine ⟨rfl, ?_⟩
    show ((x1 : Int) : ℚ) < ((x1 + ((i + 1 : ℕ) : Int) : Int) : ℚ)
    push_cast
    linarith [Nat.cast_nonneg (α := ℚ) i]
  · rw [List.mem_singleton] at h1
    subst h1
    refine ⟨rfl, ?_⟩
    show ((x1 : Int) : ℚ) < ((x2 : Int) : ℚ)
    exact_mod_cast hx

/-- A neighbour relaxation either leaves the parent map unchanged or records
the relaxed candidate as a new key. -/
theorem cf_processNeighbor_cases (goal : Position) (cur : Cell) (st : AStarState)
    (n : Cell) :
    (processNeighbor goal cur st n).came_from = st.came_from ∨
      (processNeighbor goal cur st n).came_from = aupdate st.came_from n cur := by
  simp only [processNeighbor]
  split
  · right; rfl
  · left; rfl

/-- A key present after an update was present before or is the updated key. -/
theorem alookup_isSome_aupdate {α β : Type} [DecidableEq α]
    (m : List (α × β)) (k : α) (v : β) (c : α)
    (h : (alookup (aupdate m k v) c).isSome = true) :
    (alookup m c).isSome = true ∨ c = k := by
  by_cases hck : c = k
  · exact Or.inr hck
  · rw [alookup_aupdate_ne _ _ _ _ hck] at h
    exact Or.inl h

/-- Keys of the parent map after the neighbour fold: old keys or fold inputs. -/
theorem cf_keys_foldl (goal : Position) (cur : Cell) :
    ∀ (ns : List Cell) (st : AStarState) (c : Cell),
      (alookup ((ns.foldl (processNeighbor goal cur) st).came_from) c).isSome = true →
      (alookup st.came_from c).isSome = true ∨ c ∈ ns := by
  intro ns
  induction ns with
  | nil => intro st c h; exact Or.inl h
  | cons n ns ih =>
    intro st c h
    rcases ih _ c h with h1 | h1
    · rcases cf_processNeighbor_cases goal cur st n with h2 | h2
      · rw [h2] at h1; exact Or.inl h1
      · rw [h2] at h1
        rcases alookup_isSome_aupdate _ _ _ _ h1 with h3 | h3
        · exact Or.inl h3
        · exact Or.inr (h3 ▸ List.mem_cons_self _ _)
    · exact Or.inr (List.mem_cons_of_mem _ h1)

/-- A reconstructed path is nonempty and every waypoint after the first is a
key of the parent map. -/
theorem reconstructPath_tail (cf : List (Cell × Cell)) :
    ∀ (fuel : ℕ) (c : Cell) (l : List Cell),
      reconstructPath fuel cf c = some l →
      ∃ hd tl, l = hd :: tl ∧ ∀ q ∈ tl, (alookup cf q).isSome = true := by
  intro fuel
  induction fuel with
  | zero => intro c l h; cases h
  | succ fuel ih =>
    intro c l h
    rw [reconstructPath] at h
    cases hp : alookup cf c with
    | none =>
      rw [hp] at h
      cases h
      exact ⟨c, [], rfl, by intro q hq; cases hq⟩
    | some parent =>
      rw [hp] at h
      dsimp only at h
      cases hr : reconstructPath fuel cf parent with
      | none => rw [hr] at h; cases h
      | some l0 =>
        rw [hr] at h
        simp only [Option.map_some'] at h
        obtain ⟨hd, tl, hl0, htl⟩ := ih parent l0 hr
        refine ⟨hd, tl ++ [c], by injection h with h2; rw [← h2, hl0]; rfl, ?_⟩
        intro q hq
        rcases List.mem_append.1 hq with h1 | h1
        · exact htl q h1
        · rw [List.mem_singleton] at h1
          subst h1
          rw [hp]
          rfl

/-- Throughout the A* loop, when every present parent-map key is a valid
cell, any returned cell path has every cell after the first valid. -/
theorem aStarLoop_tail_valid (m : Map) (goal : Position) (gc : Cell) :
    ∀ (fuel : ℕ) (st : AStarState),
      (∀ c : Cell, (alookup st.came_from c).isSome = true →
        m.is_valid_position (cellPos c) = true) →
      ∀ l : List Cell, aStarLoop m goal gc fuel st = some l →
        ∃ hd tl, l = hd :: tl ∧ ∀ c ∈ tl, m.is_valid_position (cellPos c) = true := by
  intro fuel
  induction fuel with
  | zero => intro st _ l h; cases h
  | succ fuel ih =>
    intro st hcf l h
    cases hop : st.open_set with
    | nil => simp [aStarLoop, hop] at h
    | cons c0 rest =>
      simp only [aStarLoop, hop] at h
      by_cases hgc : argminAux (alookup st.f_score) c0 rest = gc
      · rw [if_pos hgc] at h
        obtain ⟨hd, tl, hl, htl⟩ := reconstructPath_tail st.came_from _ _ l h
        exact ⟨hd, tl, hl, fun c hc => hcf c (htl c hc)⟩
      · rw [if_neg hgc] at h
        refine ih _ ?_ l h
        intro c hc
        rcases cf_keys_foldl goal _ (get_neighbors m _) _ c hc with h1 | h1
        · exact hcf c h1
        · exact ((mem_get_neighbors m _ c).1 h1).2

/-- Every pose after the first on a raw A* path is a valid cell centre. -/
theorem a_star_tail_valid (m : Map) (fuel : ℕ) (s g : Position)
    (path : List Position) (h : a_star m fuel s g = some path) :
    ∃ p0 t, path = p0 :: t ∧ ∀ q ∈ t, m.is_valid_position q = true := by
  simp only [a_star] at h
  cases hrun : aStarLoop m g (cellOf g) fuel
      { open_set := [cellOf s], came_from := [],
        g_score := [(cellOf s, 0)],
        f_score := [(cellOf s, (0, distsq s g))] } with
  | none => rw [hrun] at h; cases h
  | some cells =>
    rw [hrun] at h
    simp only [Option.map_some'] at h
    obtain ⟨hd, tl, hcells, htl⟩ :=
      aStarLoop_tail_valid m g (cellOf g) fuel _ (by intro c hc; cases hc) cells hrun
    refine ⟨cellPos hd, tl.map cellPos, ?_, ?_⟩
    · injection h with h2; rw [← h2, hcells]; rfl
    · intro q hq
      rw [List.mem_map] at hq
      obtain ⟨c, hc, rfl⟩ := hq
      exact htl c hc

/-- The bearing filter only ever keeps original interior waypoints. -/
theorem smoothAux_subset :
    ∀ (l : List Position) (prev : Position) (ang : ℝ),
      ∀ q ∈ smoothAux l prev ang, q ∈ l := by
  intro l
  induction l with
  | nil => intro prev ang q hq; simp [smoothAux] at hq
  | cons cur rest ih =>
    intro prev ang q hq
    simp only [smoothAux] at hq
    by_cases hc : (0.1 : ℝ) <
        |atan2 ((cur.y : ℝ) - (prev.y : ℝ)) ((cur.x : ℝ) - (prev.x : ℝ)) - ang|
    · rw [if_pos hc] at hq
      rcases List.mem_cons.1 hq with h1 | h1
      · exact h1 ▸ List.mem_cons_self _ _
      · exact List.mem_cons_of_mem _ (ih _ _ q h1)
    · rw [if_neg hc] at hq
      exact List.mem_cons_of_mem _ (ih _ _ q hq)

/-- The default-valued last element of a nonempty list is an element. -/
theorem getLastD_mem_of_ne_nil :
    ∀ (l : List Position) (d : Position), l ≠ [] → l.getLastD d ∈ l := by
  intro l
  induction l with
  | nil => intro d h; exact absurd rfl h
  | cons a t ih =>
    intro d _
    rw [List.getLastD_cons]
    cases ht : t with
    | nil => subst ht; exact List.mem_singleton_self _
    | cons b t2 =>
      subst ht
      exact List.mem_cons_of_mem _ (ih a (by simp))

/-- Smoothing keeps the first waypoint and draws every other output waypoint
from the original interior. -/
theorem smooth_path_cons (p0 : Position) (rest : List Position) :
    ∃ t, smooth_path (p0 :: rest) = p0 :: t ∧ ∀ q ∈ t, q ∈ rest := by
  cases hr : rest with
  | nil => exact ⟨[], smooth_path_singleton p0, by intro q hq; cases hq⟩
  | cons r1 rs =>
    simp only [smooth_path]
    by_cases hif : (p0 :: r1 :: rs).getLastD p0 ≠
        (p0 :: smoothAux (r1 :: rs) p0 ((p0.theta : ℝ))).getLastD p0
    · rw [if_pos hif]
      refine ⟨smoothAux (r1 :: rs) p0 ((p0.theta : ℝ)) ++
        [(p0 :: r1 :: rs).getLastD p0], rfl, ?_⟩
      intro q hq
      rcases List.mem_append.1 hq with h1 | h1
      · exact smoothAux_subset _ _ _ q h1
      · rw [List.mem_singleton] at h1
        subst h1
        rw [List.getLastD_cons]
        exact getLastD_mem_of_ne_nil _ _ (by simp)
    · rw [if_neg hif]
      exact ⟨smoothAux (r1 :: rs) p0 ((p0.theta : ℝ)), rfl,
        fun q hq => smoothAux_subset _ _ _ q hq⟩

/-- Every waypoint after the first on any successfully planned path is a
pose accepted by Map.is_valid_position. -/
theorem plan_path_tail_valid (m : Map) (fuel : ℕ) (s g : Position)
    (out : List Position) (h : plan_path m fuel s g = .ok out) :
    ∃ p0 t, out = p0 :: t ∧ ∀ q ∈ t, m.is_valid_position q = true := by
  simp only [plan_path] at h
  cases hast : a_star m fuel s g with
  | none => rw [hast] at h; cases h
  | some path =>
    rw [hast] at h
    dsimp only at h
    by_cases hnil : path = []
    · rw [if_pos hnil] at h; cases h
    · rw [if_neg hnil] at h
      obtain ⟨p0, t, rfl, htv⟩ := a_star_tail_valid m fuel s g path hast
      obtain ⟨t2, hsm, ht2⟩ := smooth_path_cons p0 t
      rw [hsm] at h
      cases h
      exact ⟨p0, t2, rfl, fun q hq => htv q (ht2 q hq)⟩

/-- Validity of every cell of an obstacle-free grid row right of the start. -/
theorem freeMap_row_valid (w h x1 x2 y : Int) (hx1 : 0 ≤ x1) (hx2 : x2 < w)
    (hy1 : 0 ≤ y) (hy2 : y < h) :
    ∀ j : Int, 1 ≤ j → j ≤ x2 - x1 →
      (freeMap w h).is_valid_position (cellPos (x1 + j, y)) = true := by
  intro j hj1 hj2
  rw [is_valid_cellPos_iff]
  dsimp only [freeMap]
  exact ⟨by omega, by omega, by omega, by omega, List.not_mem_nil _⟩

/-- Validity of the row cells right of the obstacle start cell of mObs00. -/
theorem mObs00_row_valid :
    ∀ j : Int, 1 ≤ j → j ≤ 3 - 0 →
      mObs00.is_valid_position (cellPos ((0 : Int) + j, (0 : Int))) = true := by
  intro j hj1 hj2
  rw [is_valid_cellPos_iff]
  dsimp only [mObs00]
  refine ⟨by omega, by omega, by omega, by omega, ?_⟩
  intro hmem
  rw [List.mem_singleton] at hmem
  rw [Prod.ext_iff] at hmem
  simp only [] at hmem
  omega

/-- Spec scenario poses as cell-centre poses. -/
theorem pos_eq_cellPos_00 : pos 0 0 = cellPos ((0 : Int), (0 : Int)) := by
  norm_num [pos, cellPos]

/-- Spec scenario pose (1,0) as a cell-centre pose. -/
theorem pos_eq_cellPos_10 : pos 1 0 = cellPos ((1 : Int), (0 : Int)) := by
  norm_num [pos, cellPos]

/-- Spec scenario pose (2,0) as a cell-centre pose. -/
theorem pos_eq_cellPos_20 : pos 2 0 = cellPos ((2 : Int), (0 : Int)) := by
  norm_num [pos, cellPos]

/-- Spec scenario pose (3,0) as a cell-centre pose. -/
theorem pos_eq_cellPos_30 : pos 3 0 = cellPos ((3 : Int), (0 : Int)) := by
  norm_num [pos, cellPos]

/-- The concrete straight row of the 5 x 5 scenario. -/
theorem rowCells_030 :
    rowCells 0 3 0 = [((0 : Int), (0 : Int)), (1, 0), (2, 0), (3, 0)] := by
  decide

/-- C1 counterexample: on the 5 x 5 obstacle-free grid with start (0,0) and
goal (3,0), plan_path does not return the four raw waypoints the claim
states; the smoothing pass inside plan_path has already collapsed the
straight path to its endpoints. -/
theorem plan_path_four_waypoints_counterexample :
    plan_path m5 5 (pos 0 0) (pos 3 0) ≠
      .ok [pos 0 0, pos 1 0, pos 2 0, pos 3 0] := by
  rw [pos_eq_cellPos_00, pos_eq_cellPos_10, pos_eq_cellPos_20, pos_eq_cellPos_30,
    plan_path_straight m5 0 3 0 (by decide)
      (freeMap_row_valid 5 5 0 3 0 (by decide) (by decide) (by decide) (by decide))
      5 (by decide)]
  intro hcontra
  injection hcontra with h2
  have h3 := congrArg List.length h2
  simp at h3

/-- C1 (amended): on an obstacle-free grid, between two cells on the same row
taken left to right (with the whole row in bounds), the raw A* search
returns one waypoint per cell, so its waypoint count is the coordinate
difference plus one, while plan_path returns the bearing-smoothed
simplification holding exactly the two endpoint poses; in particular on the
5 x 5 obstacle-free grid with start (0,0) and goal (3,0), the raw search
yields the four waypoints (0,0),(1,0),(2,0),(3,0) and plan_path returns
exactly (0,0),(3,0). -/
theorem plan_path_straight_row_amended :
    (∀ (w h x1 x2 y : Int) (fuel : ℕ), x1 < x2 → 0 ≤ x1 → x2 < w →
        0 ≤ y → y < h → (x2 - x1).toNat + 1 ≤ fuel →
      (∃ cells : List Position,
        a_star (freeMap w h) fuel (cellPos (x1, y)) (cellPos (x2, y)) =
            some cells ∧
          cells.length = (x2 - x1).toNat + 1) ∧
      plan_path (freeMap w h) fuel (cellPos (x1, y)) (cellPos (x2, y)) =
        .ok [cellPos (x1, y), cellPos (x2, y)]) ∧
    a_star m5 5 (pos 0 0) (pos 3 0) =
      some [pos 0 0, pos 1 0, pos 2 0, pos 3 0] ∧
    plan_path m5 5 (pos 0 0) (pos 3 0) = .ok [pos 0 0, pos 3 0] := by
  refine ⟨?_, ?_, ?_⟩
  · intro w h x1 x2 y fuel hlt hx1 hx2 hy1 hy2 hfuel
    refine ⟨⟨(rowCells x1 x2 y).map cellPos,
      a_star_straight (freeMap w h) x1 x2 y (le_of_lt hlt)
        (freeMap_row_valid w h x1 x2 y hx1 hx2 hy1 hy2) fuel hfuel, ?_⟩,
      plan_path_straight (freeMap w h) x1 x2 y hlt
        (freeMap_row_valid w h x1 x2 y hx1 hx2 hy1 hy2) fuel hfuel⟩
    simp [rowCells]
  · rw [pos_eq_cellPos_00, pos_eq_cellPos_10, pos_eq_cellPos_20, pos_eq_cellPos_30,
      a_star_straight m5 0 3 0 (by decide)
        (freeMap_row_valid 5 5 0 3 0 (by decide) (by decide) (by decide) (by decide))
        5 (by decide),
      rowCells_030]
    rfl
  · rw [pos_eq_cellPos_00, pos_eq_cellPos_30,
      plan_path_straight m5 0 3 0 (by decide)
        (freeMap_row_valid 5 5 0 3 0 (by decide) (by decide) (by decide) (by decide))
        5 (by decide)]

/-- Witness instantiating the universally quantified part of the amended C1
theorem on the concrete 5 x 5 scenario. -/
theorem plan_path_straight_row_amended_witness :
    plan_path (freeMap 5 5) 5 (cellPos ((0 : Int), (0 : Int)))
        (cellPos ((3 : Int), (0 : Int))) =
      .ok [cellPos ((0 : Int), (0 : Int)), cellPos ((3 : Int), (0 : Int))] :=
  (plan_path_straight_row_amended.1 5 5 0 3 0 5 (by decide) (by decide) (by decide)
    (by decide) (by decide) (by decide)).2

/-- C10: every waypoint after the first on any path plan_path returns
successfully is a pose Map.is_valid_position accepts, while the start cell
is never validity-checked: with an obstacle on cell (0,0) of the 5 x 5 grid,
plan_path from the non-traversable pose (0,0) to (3,0) still returns a path
beginning at that pose. -/
theorem plan_path_tail_valid_start_unchecked :
    (∀ (m : Map) (fuel : ℕ) (s g : Position) (path : List Position),
        plan_path m fuel s g = .ok path →
        ∃ p0 t, path = p0 :: t ∧ ∀ q ∈ t, m.is_valid_position q = true) ∧
      mObs00.is_valid_position (pos 0 0) = false ∧
      plan_path mObs00 5 (pos 0 0) (pos 3 0) = .ok [pos 0 0, pos 3 0] := by
  refine ⟨plan_path_tail_valid, ?_, ?_⟩
  · rw [pos_eq_cellPos_00, Bool.eq_false_iff]
    intro hva
    rw [is_valid_cellPos_iff] at hva
    exact hva.2.2.2.2 (by dsimp only [mObs00]; exact List.mem_singleton_self _)
  · rw [pos_eq_cellPos_00, pos_eq_cellPos_30,
      plan_path_straight mObs00 0 3 0 (by decide) mObs00_row_valid 5 (by decide)]

/-- Witness instantiating the universally quantified part of the C10 theorem
on the obstacle-start scenario the theorem itself provides. -/
theorem plan_path_tail_valid_start_unchecked_witness :
    ∃ p0 t, ([pos 0 0, pos 3 0] : List Position) = p0 :: t ∧
      ∀ q ∈ t, mObs00.is_valid_position q = true :=
  plan_path_tail_valid_start_unchecked.1 mObs00 5 (pos 0 0) (pos 3 0)
    [pos 0 0, pos 3 0] plan_path_tail_valid_start_unchecked.2.2
